import Mathlib

/-
Verification of QManimPlayer's non-GUI core against its specification.

The development shallowly embeds the Python sources of
src/qmanimplayer/{param_manager.py, parser.py, manim_runner.py, preset_manager.py}.

Modelling conventions, used throughout:
* Python dictionaries keyed by strings are modelled as insertion-ordered
  association lists (`alookup` returns the binding of the first matching key;
  `setKey` updates in place, or appends a new binding, exactly like `d[k] = v`).
* Python numbers are modelled exactly: `int` as ℤ and `float` as ℚ
  (finite values only; IEEE rounding and NaN/inf are outside the model,
  and the claims under verification quantify only over ordinary values).
* Code that can raise an uncaught exception returns `Option _`
  (`none` = the Python call raised) so that exceptional control flow is visible.
* I/O side effects that the claims do not mention (patching the script file on
  disk, invoking listener callbacks, wall-clock timestamps, printing) are
  outside the state; the in-memory state transitions are modelled in full.
-/

namespace QMPlayer

/-! Association-list model of Python's insertion-ordered `dict`. -/

def alookup {α : Type} : List (String × α) → String → Option α
  | [], _ => none
  | (k, v) :: rest, key => if k = key then some v else alookup rest key

def setKey {α : Type} : List (String × α) → String → α → List (String × α)
  | [], key, v => [(key, v)]
  | (k, w) :: rest, key, v =>
      if k = key then (k, v) :: rest else (k, w) :: setKey rest key v

theorem alookup_setKey_self {α : Type} (m : List (String × α)) (k : String) (v : α) :
    alookup (setKey m k v) k = some v := by
  induction m with
  | nil => simp [setKey, alookup]
  | cons p rest ih =>
    by_cases h : p.1 = k
    · simp [setKey, alookup, h]
    · simp [setKey, alookup, h, ih]

theorem alookup_setKey_ne {α : Type} (m : List (String × α)) (k k' : String) (v : α)
    (h : k ≠ k') : alookup (setKey m k v) k' = alookup m k' := by
  induction m with
  | nil => simp [setKey, alookup, h]
  | cons p rest ih =>
    by_cases hp : p.1 = k
    · simp [setKey, alookup, hp, h]
    · simp [setKey, alookup, hp, ih]

theorem setKey_setKey {α : Type} (m : List (String × α)) (k : String) (a b : α) :
    setKey (setKey m k a) k b = setKey m k b := by
  induction m with
  | nil => simp [setKey]
  | cons p rest ih =>
    by_cases hp : p.1 = k
    · simp [setKey, hp]
    · simp [setKey, hp, ih]

theorem setKey_of_alookup {α : Type} (m : List (String × α)) (k : String) (v : α)
    (h : alookup m k = some v) : setKey m k v = m := by
  induction m with
  | nil => simp [alookup] at h
  | cons p rest ih =>
    obtain ⟨pk, pv⟩ := p
    by_cases hp : pk = k
    · simp [alookup, hp] at h
      simp [setKey, hp, h]
    · simp [alookup, hp] at h
      simp [setKey, hp, ih h]

theorem alookup_setKey_isSome {α : Type} (m : List (String × α)) (k k' : String) (v : α)
    (h : (alookup m k').isSome) : (alookup (setKey m k v) k').isSome := by
  by_cases hk : k = k'
  · subst hk; simp [alookup_setKey_self]
  · rwa [alookup_setKey_ne m k k' v hk]

/-! Python runtime values, restricted to the kinds the parameter store handles:
integers, (finite) floats, booleans and strings. `bool` is its own constructor
even though Python bools are ints; the store's `_validate_type` explicitly
distinguishes them with `isinstance(value, bool)`, and numeric equality and
comparison below reunite them through `toNum`. -/

inductive PyVal : Type
  | int (n : ℤ)
  | float (q : ℚ)
  | bool (b : Bool)
  | str (s : String)
  deriving DecidableEq, Repr

/-- Numeric view of a value, mirroring Python's arithmetic tower:
ints and floats are numbers, `True`/`False` count as `1`/`0`; strings are not
numbers. -/
def toNum : PyVal → Option ℚ
  | .int n => some (n : ℚ)
  | .float q => some q
  | .bool b => some (if b then 1 else 0)
  | .str _ => none

/-- Python `==` on the modelled values: cross-kind numeric equality
(`1 == 1.0 == True`), string equality, and `False` between a string and a
number. Never raises. -/
def pyEqB (a b : PyVal) : Bool :=
  match toNum a, toNum b with
  | some x, some y => decide (x = y)
  | _, _ =>
    match a, b with
    | .str s, .str t => decide (s = t)
    | _, _ => false

/-- Python `<` on the modelled values: numeric comparison across kinds,
lexicographic comparison between strings, and a `TypeError` (`none`)
between a string and a number. -/
def pyLtB (a b : PyVal) : Option Bool :=
  match toNum a, toNum b with
  | some x, some y => some (decide (x < y))
  | _, _ =>
    match a, b with
    | .str s, .str t => some (decide (s < t))
    | _, _ => none

theorem pyEqB_refl (v : PyVal) : pyEqB v v = true := by
  cases v <;> simp [pyEqB, toNum]

/-! The `ParameterManager` state (param_manager.py). -/

/-- The four recognized type objects that `parser._extract_value` can produce
for the `"type"` metadata key. -/
inductive TypeTag : Type
  | tfloat
  | tint
  | tbool
  | tstr
  deriving DecidableEq, Repr

/-- The value stored under a parameter's `"type"` key: either one of the four
recognized type objects, or anything else (e.g. `None`), for which
`_validate_type` falls through to `return True`. -/
inductive TypeMarker : Type
  | marker (t : TypeTag)
  | otherTy
  deriving DecidableEq, Repr

/-- One entry of the `parameters` dictionary, keeping exactly the metadata keys
the manager reads: `"value"`, and the optional `"type"`, `"min"`, `"max"`
(`none` models an absent key). The `"unit"`/`"description"` keys are never read
by the manager and are omitted. -/
structure ParamData : Type where
  value : PyVal
  type? : Option TypeMarker
  min? : Option PyVal
  max? : Option PyVal
  deriving DecidableEq, Repr

/-- Used for `self.parameters.get(param_name, {})` in `_validate_bounds`:
the empty dict has no `"min"`/`"max"` keys. -/
def emptyParamData : ParamData :=
  { value := .int 0, type? := none, min? := none, max? := none }

/-- `ParameterChange`: a single parameter change for undo/redo.
The wall-clock `timestamp` field is omitted (it is never read back). -/
structure ParameterChange : Type where
  param_name : String
  old_value : PyVal
  new_value : PyVal
  deriving DecidableEq, Repr

/-- In-memory state of `ParameterManager`: the `parameters` metadata dict, the
`current_values` dict, and the undo/redo stacks (Python appends and pops at the
end of the list, so a stack's top is its last element). -/
structure PMState : Type where
  parameters : List (String × ParamData)
  current_values : List (String × PyVal)
  undo_stack : List (List ParameterChange)
  redo_stack : List (List ParameterChange)
  deriving DecidableEq, Repr

/-- `ParameterManager._validate_type`. -/
def validate_type (s : PMState) (param_name : String) (value : PyVal) : Bool :=
  match alookup s.parameters param_name with
  | none => false
  | some pd =>
    match pd.type? with
    | none => true
    | some (.marker .tfloat) =>
      match value with
      | .int _ => true
      | .float _ => true
      | _ => false
    | some (.marker .tint) =>
      match value with
      | .int _ => true
      | _ => false
    | some (.marker .tbool) =>
      match value with
      | .bool _ => true
      | _ => false
    | some (.marker .tstr) =>
      match value with
      | .str _ => true
      | _ => false
    | some .otherTy => true

/-- `ParameterManager._validate_bounds`; `none` models an uncaught `TypeError`
from comparing incomparable kinds (e.g. a string against a numeric bound). -/
def validate_bounds (s : PMState) (param_name : String) (value : PyVal) : Option Bool :=
  let pd := (alookup s.parameters param_name).getD emptyParamData
  match pd.min? with
  | some m =>
    match pyLtB value m with
    | none => none
    | some true => some false
    | some false =>
      match pd.max? with
      | some mx =>
        match pyLtB mx value with
        | none => none
        | some true => some false
        | some false => some true
      | none => some true
  | none =>
    match pd.max? with
    | some mx =>
      match pyLtB mx value with
      | none => none
      | some true => some false
      | some false => some true
    | none => some true

/-- `ParameterManager.set_parameter`.  File patching and listener notification
are I/O effects outside the state.  `none` models an uncaught exception. -/
def set_parameter (s : PMState) (param_name : String) (new_value : PyVal) :
    Option (Bool × PMState) :=
  match alookup s.current_values param_name with
  | none => some (false, s)
  | some old_value =>
    if pyEqB old_value new_value then some (false, s)
    else if validate_type s param_name new_value then
      match validate_bounds s param_name new_value with
      | none => none
      | some false => some (false, s)
      | some true =>
        match alookup s.parameters param_name with
        | none => none
        | some pd =>
          some (true,
            { parameters := setKey s.parameters param_name { pd with value := new_value },
              current_values := setKey s.current_values param_name new_value,
              undo_stack := s.undo_stack ++ [[⟨param_name, old_value, new_value⟩]],
              redo_stack := [] })
    else some (false, s)

/-- `ParameterManager.get_parameter` (`self.current_values.get(param_name)`). -/
def get_parameter (s : PMState) (param_name : String) : Option PyVal :=
  alookup s.current_values param_name

theorem validate_type_isSome (s : PMState) (n : String) (v : PyVal)
    (h : validate_type s n v = true) : ∃ pd, alookup s.parameters n = some pd := by
  unfold validate_type at h
  cases hl : alookup s.parameters n with
  | none => rw [hl] at h; simp at h
  | some pd => exact ⟨pd, rfl⟩

/-- Forward computation of `set_parameter` on the success path. -/
theorem set_parameter_eq_of_valid (s : PMState) (name : String) (v old : PyVal)
    (pd : ParamData)
    (hcv : alookup s.current_values name = some old)
    (hne : pyEqB old v = false)
    (hty : validate_type s name v = true)
    (hbd : validate_bounds s name v = some true)
    (hpd : alookup s.parameters name = some pd) :
    set_parameter s name v =
      some (true,
        { parameters := setKey s.parameters name { pd with value := v },
          current_values := setKey s.current_values name v,
          undo_stack := s.undo_stack ++ [[⟨name, old, v⟩]],
          redo_stack := [] }) := by
  unfold set_parameter
  simp only [hcv, hne, hty, hbd, hpd, Bool.false_eq_true, if_false, if_true]

/-- Inversion: everything that a successful `set_parameter` forces. -/
theorem set_parameter_success (s : PMState) (name : String) (v : PyVal) (s' : PMState)
    (h : set_parameter s name v = some (true, s')) :
    ∃ old pd,
      alookup s.current_values name = some old ∧
      pyEqB old v = false ∧
      validate_type s name v = true ∧
      validate_bounds s name v = some true ∧
      alookup s.parameters name = some pd ∧
      s' = { parameters := setKey s.parameters name { pd with value := v },
             current_values := setKey s.current_values name v,
             undo_stack := s.undo_stack ++ [[⟨name, old, v⟩]],
             redo_stack := [] } := by
  unfold set_parameter at h
  cases hcv : alookup s.current_values name with
  | none => simp [hcv] at h
  | some old =>
    simp only [hcv] at h
    cases hne : pyEqB old v with
    | true => simp [hne] at h
    | false =>
      simp only [hne, Bool.false_eq_true, if_false] at h
      cases hty : validate_type s name v with
      | false => simp [hty] at h
      | true =>
        simp only [hty, if_true] at h
        cases hbd : validate_bounds s name v with
        | none => simp [hbd] at h
        | some b =>
          simp only [hbd] at h
          cases b with
          | false => simp at h
          | true =>
            cases hpd : alookup s.parameters name with
            | none => simp [hpd] at h
            | some pd =>
              simp only [hpd, Option.some.injEq, Prod.mk.injEq, true_and] at h
              exact ⟨old, pd, rfl, hne, rfl, rfl, rfl, h.symm⟩

/-- C1: a valid, in-bounds, genuinely different value is accepted: the call
returns `true`, `get_parameter` then returns exactly that value, exactly one
single-change batch is appended to the undo stack, and the redo stack is
cleared. -/
theorem C1_set_then_get (s : PMState) (name : String) (v old : PyVal)
    (hcv : alookup s.current_values name = some old)
    (hne : pyEqB old v = false)
    (hty : validate_type s name v = true)
    (hbd : validate_bounds s name v = some true) :
    ∃ s', set_parameter s name v = some (true, s') ∧
      get_parameter s' name = some v ∧
      s'.undo_stack = s.undo_stack ++ [[⟨name, old, v⟩]] ∧
      s'.redo_stack = [] := by
  obtain ⟨pd, hpd⟩ := validate_type_isSome s name v hty
  refine ⟨_, set_parameter_eq_of_valid s name v old pd hcv hne hty hbd hpd, ?_, rfl, rfl⟩
  simp [get_parameter, alookup_setKey_self]

/-- C2: an unknown name, an unchanged value, a type-check failure, or a bounds
violation each make `set_parameter` return `false` and leave the entire state
(current values, parameter specs, and both stacks) unchanged. -/
theorem C2_set_rejections (s : PMState) (name : String) (v : PyVal)
    (h : alookup s.current_values name = none ∨
         (∃ old, alookup s.current_values name = some old ∧ pyEqB old v = true) ∨
         validate_type s name v = false ∨
         validate_bounds s name v = some false) :
    set_parameter s name v = some (false, s) := by
  unfold set_parameter
  rcases h with hnone | ⟨old, hold, heq⟩ | hty | hbd
  · simp only [hnone]
  · simp only [hold, heq, if_true]
  · cases hcv : alookup s.current_values name with
    | none => rfl
    | some old =>
      cases hne : pyEqB old v with
      | true => simp [hne]
      | false => simp [hne, hty]
  · cases hcv : alookup s.current_values name with
    | none => rfl
    | some old =>
      cases hne : pyEqB old v with
      | true => simp [hne]
      | false =>
        cases hty : validate_type s name v with
        | false => simp [hne, hty]
        | true => simp [hne, hty, hbd]

/-! Concrete sample states used by the witnesses. -/

def pdAmplitude : ParamData :=
  { value := .float 1, type? := some (.marker .tfloat),
    min? := some (.float 0), max? := some (.float 10) }

def pdShowGrid : ParamData :=
  { value := .bool false, type? := some (.marker .tbool), min? := none, max? := none }

def sampleState : PMState :=
  { parameters := [("amplitude", pdAmplitude), ("show_grid", pdShowGrid)],
    current_values := [("amplitude", .float 1), ("show_grid", .bool false)],
    undo_stack := [],
    redo_stack := [] }

theorem C1_set_then_get_witness :
    ∃ s', set_parameter sampleState "amplitude" (PyVal.float 5) = some (true, s') ∧
      get_parameter s' "amplitude" = some (PyVal.float 5) ∧
      s'.undo_stack = [] ++ [[⟨"amplitude", PyVal.float 1, PyVal.float 5⟩]] ∧
      s'.redo_stack = [] :=
  C1_set_then_get sampleState "amplitude" (PyVal.float 5) (PyVal.float 1)
    (by decide) (by decide) (by decide) (by decide)

theorem C2_set_rejections_witness :
    set_parameter sampleState "amplitude" (PyVal.float 99) = some (false, sampleState) :=
  C2_set_rejections sampleState "amplitude" (PyVal.float 99)
    (Or.inr (Or.inr (Or.inr (by decide))))

/-! Undo and redo (`ParameterManager.undo` / `ParameterManager.redo`).
Python's `list.append`/`list.pop` operate on the end of the list, so the top
of a stack is its last element. -/

/-- The `for change in changes` loop of `undo`: restore `old_value` for every
record, in original order.  `none` models the `KeyError` raised when a change
names a parameter missing from `self.parameters`. -/
def undoApply : List (String × PyVal) → List (String × ParamData) →
    List ParameterChange → Option (List (String × PyVal) × List (String × ParamData))
  | cv, ps, [] => some (cv, ps)
  | cv, ps, c :: rest =>
    match alookup ps c.param_name with
    | none => none
    | some pd =>
      undoApply (setKey cv c.param_name c.old_value)
        (setKey ps c.param_name { pd with value := c.old_value }) rest

/-- The `for change in changes` loop of `redo`: reapply `new_value` for every
record, in original order. -/
def redoApply : List (String × PyVal) → List (String × ParamData) →
    List ParameterChange → Option (List (String × PyVal) × List (String × ParamData))
  | cv, ps, [] => some (cv, ps)
  | cv, ps, c :: rest =>
    match alookup ps c.param_name with
    | none => none
    | some pd =>
      redoApply (setKey cv c.param_name c.new_value)
        (setKey ps c.param_name { pd with value := c.new_value }) rest

/-- `ParameterManager.undo`. -/
def undo (s : PMState) : Option (Bool × PMState) :=
  match s.undo_stack.getLast? with
  | none => some (false, s)
  | some changes =>
    match undoApply s.current_values s.parameters changes with
    | none => none
    | some (cv, ps) =>
      some (true,
        { parameters := ps, current_values := cv,
          undo_stack := s.undo_stack.dropLast,
          redo_stack := s.redo_stack ++ [changes] })

/-- `ParameterManager.redo`. -/
def redo (s : PMState) : Option (Bool × PMState) :=
  match s.redo_stack.getLast? with
  | none => some (false, s)
  | some changes =>
    match redoApply s.current_values s.parameters changes with
    | none => none
    | some (cv, ps) =>
      some (true,
        { parameters := ps, current_values := cv,
          undo_stack := s.undo_stack ++ [changes],
          redo_stack := s.redo_stack.dropLast })

/-- Iterated `undo(); redo()` pairs, for the convergence part of the claim. -/
def pairIter : Nat → PMState → Option PMState
  | 0, s => some s
  | n + 1, s =>
    (undo s).bind fun p => (redo p.2).bind fun q => pairIter n q.2

/-- C3: after a successful `set_parameter`, `undo` succeeds, restores the prior
value (leaving `current_values` exactly as before the set), moves the popped
batch onto the redo stack, `redo` then reproduces the post-set state exactly,
every repetition of the undo/redo pair returns to that same state, and `undo`
on an empty undo stack returns `false` without any change. -/
theorem C3_undo_redo_roundtrip (s : PMState) (name : String) (v : PyVal) (s₁ : PMState)
    (h : set_parameter s name v = some (true, s₁)) :
    (∃ old s₂,
       alookup s.current_values name = some old ∧
       undo s₁ = some (true, s₂) ∧
       get_parameter s₂ name = some old ∧
       s₂.current_values = s.current_values ∧
       s₂.undo_stack = s.undo_stack ∧
       s₂.redo_stack = [[⟨name, old, v⟩]] ∧
       redo s₂ = some (true, s₁) ∧
       get_parameter s₁ name = some v ∧
       ∀ n, pairIter n s₁ = some s₁) ∧
    (∀ t : PMState, t.undo_stack = [] → undo t = some (false, t)) := by
  obtain ⟨old, pd, hcv, _, _, _, hpd, hs₁⟩ := set_parameter_success s name v s₁ h
  have hundo : undo s₁ = some (true,
      { parameters := setKey s.parameters name { pd with value := old },
        current_values := s.current_values,
        undo_stack := s.undo_stack,
        redo_stack := [[⟨name, old, v⟩]] }) := by
    rw [hs₁]
    simp only [undo, List.getLast?_concat, List.dropLast_concat, undoApply,
      alookup_setKey_self, setKey_setKey, setKey_of_alookup s.current_values name old hcv,
      List.nil_append]
  have hredo : redo
      { parameters := setKey s.parameters name { pd with value := old },
        current_values := s.current_values,
        undo_stack := s.undo_stack,
        redo_stack := [[⟨name, old, v⟩]] } = some (true, s₁) := by
    rw [hs₁]
    simp only [redo, List.getLast?_singleton, List.dropLast_single, redoApply,
      alookup_setKey_self, setKey_setKey]
  refine ⟨⟨old, _, hcv, hundo, ?_, rfl, rfl, rfl, hredo, ?_, ?_⟩, ?_⟩
  · simpa [get_parameter] using hcv
  · rw [hs₁]
    simp [get_parameter, alookup_setKey_self]
  · intro n
    induction n with
    | zero => rfl
    | succ m ih =>
      unfold pairIter
      rw [hundo, Option.some_bind, hredo, Option.some_bind]
      exact ih
  · intro t ht
    unfold undo
    rw [ht]
    rfl

/-- The state `sampleState` reaches after `set_parameter("amplitude", 5.0)`. -/
def afterSet : PMState :=
  { parameters := [("amplitude", { pdAmplitude with value := .float 5 }), ("show_grid", pdShowGrid)],
    current_values := [("amplitude", .float 5), ("show_grid", .bool false)],
    undo_stack := [[⟨"amplitude", .float 1, .float 5⟩]],
    redo_stack := [] }

theorem C3_undo_redo_roundtrip_witness :
    (∃ old s₂,
       alookup sampleState.current_values "amplitude" = some old ∧
       undo afterSet = some (true, s₂) ∧
       get_parameter s₂ "amplitude" = some old ∧
       s₂.current_values = sampleState.current_values ∧
       s₂.undo_stack = sampleState.undo_stack ∧
       s₂.redo_stack = [[⟨"amplitude", old, PyVal.float 5⟩]] ∧
       redo s₂ = some (true, afterSet) ∧
       get_parameter afterSet "amplitude" = some (PyVal.float 5) ∧
       ∀ n, pairIter n afterSet = some afterSet) ∧
    (∀ t : PMState, t.undo_stack = [] → undo t = some (false, t)) :=
  C3_undo_redo_roundtrip sampleState "amplitude" (PyVal.float 5) afterSet (by decide)

/-! Batch updates (`ParameterManager.set_parameters_batch`).
A Python dict of updates is modelled as its insertion-ordered item list
(so the keys are distinct; the theorems take that as a hypothesis). -/

/-- The verdict the first (validation) loop of `set_parameters_batch` computes
for one entry, from the untouched pre-call state; `none` models the uncaught
`TypeError` a string/number bound comparison would raise. -/
def validateEntry (s : PMState) (param_name : String) (new_value : PyVal) : Option Bool :=
  if (alookup s.current_values param_name).isNone then some false
  else if validate_type s param_name new_value then
    match validate_bounds s param_name new_value with
    | none => none
    | some b => some b
  else some false

/-- The first loop of `set_parameters_batch`: fill the `results` dict. -/
def batchValidate (s : PMState) :
    List (String × PyVal) → List (String × Bool) → Option (List (String × Bool))
  | [], results => some results
  | (n, v) :: rest, results =>
    match validateEntry s n v with
    | none => none
    | some b => batchValidate s rest (setKey results n b)

/-- The second loop of `set_parameters_batch`: apply every entry whose
`results` verdict is `True`, in original order, accumulating the
`ParameterChange` records.  `none` models a `KeyError`. -/
def batchApply (results : List (String × Bool)) :
    List (String × PyVal) → List (String × PyVal) → List (String × ParamData) →
    List ParameterChange →
    Option (List (String × PyVal) × List (String × ParamData) × List ParameterChange)
  | [], cv, ps, changes => some (cv, ps, changes)
  | (n, v) :: rest, cv, ps, changes =>
    if alookup results n = some true then
      match alookup cv n, alookup ps n with
      | some old, some pd =>
        batchApply results rest (setKey cv n v) (setKey ps n { pd with value := v })
          (changes ++ [⟨n, old, v⟩])
      | _, _ => none
    else batchApply results rest cv ps changes

/-- `ParameterManager.set_parameters_batch`. -/
def set_parameters_batch (s : PMState) (updates : List (String × PyVal)) :
    Option (List (String × Bool) × PMState) :=
  match batchValidate s updates [] with
  | none => none
  | some results =>
    match batchApply results updates s.current_values s.parameters [] with
    | none => none
    | some (cv, ps, changes) =>
      if changes.isEmpty then
        some (results, { s with current_values := cv, parameters := ps })
      else
        some (results,
          { parameters := ps, current_values := cv,
            undo_stack := s.undo_stack ++ [changes], redo_stack := [] })

/-- Boolean form of "this entry passes the batch validation loop". -/
def entryOKB (s : PMState) (p : String × PyVal) : Bool :=
  match validateEntry s p.1 p.2 with
  | some true => true
  | _ => false

/-- Folding the passed entries over `current_values` in original order. -/
def applyVals (cv : List (String × PyVal)) : List (String × PyVal) → List (String × PyVal)
  | [] => cv
  | (n, v) :: rest => applyVals (setKey cv n v) rest

/-- The change record the apply loop creates for a passed entry (its old value
is the pre-call current value; the default is never used). -/
def mkChange (s : PMState) (p : String × PyVal) : ParameterChange :=
  ⟨p.1, (alookup s.current_values p.1).getD p.2, p.2⟩

theorem entryOKB_elim (s : PMState) (p : String × PyVal) (h : entryOKB s p = true) :
    validateEntry s p.1 p.2 = some true := by
  unfold entryOKB at h
  cases hv : validateEntry s p.1 p.2 with
  | none => rw [hv] at h; simp at h
  | some b => cases b with
    | false => rw [hv] at h; simp at h
    | true => rfl

theorem validateEntry_true_elim (s : PMState) (n : String) (v : PyVal)
    (h : validateEntry s n v = some true) :
    (alookup s.current_values n).isSome ∧ validate_type s n v = true := by
  unfold validateEntry at h
  cases hcv : (alookup s.current_values n).isNone with
  | true => rw [hcv] at h; simp at h
  | false =>
    rw [hcv] at h
    simp only [Bool.false_eq_true, if_false] at h
    refine ⟨by simpa [Option.isNone_eq_false_iff] using hcv, ?_⟩
    cases hty : validate_type s n v with
    | false => rw [hty] at h; simp at h
    | true => rfl

theorem entryOKB_of_validateEntry (s : PMState) (p : String × PyVal) (b : Bool)
    (h : validateEntry s p.1 p.2 = some b) : entryOKB s p = b := by
  cases b with
  | true => simp [entryOKB, h]
  | false => simp [entryOKB, h]

theorem batchValidate_some (s : PMState) :
    ∀ (updates : List (String × PyVal)) (res₀ : List (String × Bool)),
    (∀ p ∈ updates, validateEntry s p.1 p.2 ≠ none) →
    ∃ res, batchValidate s updates res₀ = some res := by
  intro updates
  induction updates with
  | nil => intro res₀ _; exact ⟨res₀, rfl⟩
  | cons p rest ih =>
    intro res₀ hok
    obtain ⟨n, v⟩ := p
    cases hv : validateEntry s n v with
    | none => exact absurd hv (hok (n, v) (List.mem_cons_self _ _))
    | some b =>
      obtain ⟨res, hres⟩ := ih (setKey res₀ n b) (fun q hq => hok q (List.mem_cons_of_mem _ hq))
      exact ⟨res, by simpa [batchValidate, hv] using hres⟩

theorem batchValidate_lookup_frozen (s : PMState) :
    ∀ (updates : List (String × PyVal)) (res₀ res : List (String × Bool)) (n : String),
    (∀ p ∈ updates, p.1 ≠ n) →
    batchValidate s updates res₀ = some res →
    alookup res n = alookup res₀ n := by
  intro updates
  induction updates with
  | nil => intro res₀ res n _ hrun; cases hrun; rfl
  | cons p rest ih =>
    intro res₀ res n hne hrun
    obtain ⟨m, w⟩ := p
    unfold batchValidate at hrun
    cases hv : validateEntry s m w with
    | none => rw [hv] at hrun; simp at hrun
    | some b =>
      rw [hv] at hrun
      have := ih (setKey res₀ m b) res n (fun q hq => hne q (List.mem_cons_of_mem _ hq)) hrun
      rwa [alookup_setKey_ne _ _ _ _ (hne (m, w) (List.mem_cons_self _ _))] at this

theorem batchValidate_lookup (s : PMState) :
    ∀ (updates : List (String × PyVal)) (res₀ res : List (String × Bool))
      (n : String) (v : PyVal) (b : Bool),
    (updates.map Prod.fst).Nodup →
    (n, v) ∈ updates →
    validateEntry s n v = some b →
    batchValidate s updates res₀ = some res →
    alookup res n = some b := by
  intro updates
  induction updates with
  | nil => intro _ _ _ _ _ _ hmem; simp at hmem
  | cons p rest ih =>
    intro res₀ res n v b hnd hmem hv hrun
    obtain ⟨m, w⟩ := p
    unfold batchValidate at hrun
    rcases List.mem_cons.mp hmem with heq | hmem'
    · obtain ⟨rfl, rfl⟩ := Prod.mk.injEq .. ▸ heq
      rw [hv] at hrun
      have hfrozen : ∀ q ∈ rest, q.1 ≠ n := by
        intro q hq hqn
        have : n ∈ rest.map Prod.fst := hqn ▸ List.mem_map_of_mem Prod.fst hq
        exact (List.nodup_cons.mp hnd).1 this
      have := batchValidate_lookup_frozen s rest (setKey res₀ n b) res n hfrozen hrun
      rwa [alookup_setKey_self] at this
    · cases hv' : validateEntry s m w with
      | none => rw [hv'] at hrun; simp at hrun
      | some b' =>
        rw [hv'] at hrun
        exact ih (setKey res₀ m b') res n v b (List.nodup_cons.mp hnd).2 hmem' hv hrun

theorem batchApply_spec (s : PMState) (results : List (String × Bool)) :
    ∀ (updates : List (String × PyVal)) (cv : List (String × PyVal))
      (ps : List (String × ParamData)) (changes : List ParameterChange),
    (updates.map Prod.fst).Nodup →
    (∀ p ∈ updates, alookup results p.1 = some (entryOKB s p)) →
    (∀ p ∈ updates, entryOKB s p = true →
        alookup cv p.1 = alookup s.current_values p.1 ∧ (alookup ps p.1).isSome) →
    ∃ ps',
      batchApply results updates cv ps changes =
        some (applyVals cv (updates.filter (entryOKB s)), ps',
              changes ++ (updates.filter (entryOKB s)).map (mkChange s)) ∧
      (updates.filter (entryOKB s) = [] → ps' = ps) := by
  intro updates
  induction updates with
  | nil =>
    intro cv ps changes _ _ _
    exact ⟨ps, by simp [batchApply, applyVals], fun _ => rfl⟩
  | cons p rest ih =>
    intro cv ps changes hnd hres hcv
    obtain ⟨n, v⟩ := p
    have hresn := hres (n, v) (List.mem_cons_self _ _)
    cases hOK : entryOKB s (n, v) with
    | false =>
      rw [hOK] at hresn
      have hcond : ¬ (alookup results n = some true) := by
        rw [hresn]; simp
      obtain ⟨ps', h1, h2⟩ := ih cv ps changes (List.nodup_cons.mp hnd).2
        (fun q hq => hres q (List.mem_cons_of_mem _ hq))
        (fun q hq hqOK => hcv q (List.mem_cons_of_mem _ hq) hqOK)
      refine ⟨ps', ?_, ?_⟩
      · rw [List.filter_cons_of_neg (by simp [hOK])]
        simpa [batchApply, hcond] using h1
      · intro hfil
        rw [List.filter_cons_of_neg (by simp [hOK])] at hfil
        exact h2 hfil
    | true =>
      rw [hOK] at hresn
      have hval := entryOKB_elim s (n, v) hOK
      have hsome := (validateEntry_true_elim s n v hval).1
      obtain ⟨old, hold⟩ := Option.isSome_iff_exists.mp hsome
      have hcvn : alookup cv n = some old := by
        rw [(hcv (n, v) (List.mem_cons_self _ _) hOK).1, hold]
      obtain ⟨pd, hpd⟩ :=
        Option.isSome_iff_exists.mp (hcv (n, v) (List.mem_cons_self _ _) hOK).2
      have hfrozen : ∀ q ∈ rest, q.1 ≠ n := by
        intro q hq hqn
        have : n ∈ rest.map Prod.fst := hqn ▸ List.mem_map_of_mem Prod.fst hq
        exact (List.nodup_cons.mp hnd).1 this
      obtain ⟨ps', h1, _⟩ := ih (setKey cv n v) (setKey ps n { pd with value := v })
        (changes ++ [⟨n, old, v⟩]) (List.nodup_cons.mp hnd).2
        (fun q hq => hres q (List.mem_cons_of_mem _ hq))
        (fun q hq hqOK => by
          constructor
          · rw [alookup_setKey_ne _ _ _ _ (Ne.symm (hfrozen q hq))]
            exact (hcv q (List.mem_cons_of_mem _ hq) hqOK).1
          · exact alookup_setKey_isSome _ _ _ _ (hcv q (List.mem_cons_of_mem _ hq) hqOK).2)
      refine ⟨ps', ?_, ?_⟩
      · have hmk : mkChange s (n, v) = ⟨n, old, v⟩ := by
          simp [mkChange, hold]
        have hstep : batchApply results ((n, v) :: rest) cv ps changes =
            batchApply results rest (setKey cv n v) (setKey ps n { pd with value := v })
              (changes ++ [⟨n, old, v⟩]) := by
          simp [batchApply, hresn, hcvn, hpd]
        rw [hstep, h1, List.filter_cons_of_pos (by simp [hOK])]
        simp [applyVals, hmk, List.append_assoc]
      · intro hfil
        rw [List.filter_cons_of_pos (by simp [hOK])] at hfil
        simp at hfil

/-- C4: `set_parameters_batch` validates each entry independently against the
pre-call state, applies exactly the passing entries in original order, reports
`true` in the result map exactly for those entries, pushes a single batch of
all applied changes (none when nothing passed), and clears the redo stack only
when something was applied. -/
theorem C4_batch_updates (s : PMState) (updates : List (String × PyVal))
    (hnd : (updates.map Prod.fst).Nodup)
    (hok : ∀ p ∈ updates, validateEntry s p.1 p.2 ≠ none) :
    ∃ results s',
      set_parameters_batch s updates = some (results, s') ∧
      (∀ p ∈ updates, alookup results p.1 = some (entryOKB s p)) ∧
      s'.current_values = applyVals s.current_values (updates.filter (entryOKB s)) ∧
      (updates.filter (entryOKB s) = [] → s' = s) ∧
      (updates.filter (entryOKB s) ≠ [] →
        s'.undo_stack = s.undo_stack ++ [(updates.filter (entryOKB s)).map (mkChange s)] ∧
        s'.redo_stack = []) := by
  obtain ⟨results, hresrun⟩ := batchValidate_some s updates [] hok
  have hreslook : ∀ p ∈ updates, alookup results p.1 = some (entryOKB s p) := by
    intro p hp
    obtain ⟨n, v⟩ := p
    cases hv : validateEntry s n v with
    | none => exact absurd hv (hok (n, v) hp)
    | some b =>
      rw [entryOKB_of_validateEntry s (n, v) b hv]
      exact batchValidate_lookup s updates [] results n v b hnd hp hv hresrun
  have hinit : ∀ p ∈ updates, entryOKB s p = true →
      alookup s.current_values p.1 = alookup s.current_values p.1 ∧
      (alookup s.parameters p.1).isSome := by
    intro p hp hpOK
    refine ⟨rfl, ?_⟩
    obtain ⟨pd, hpd⟩ := validate_type_isSome s p.1 p.2
      (validateEntry_true_elim s p.1 p.2 (entryOKB_elim s p hpOK)).2
    simp [hpd]
  obtain ⟨ps', happly, hempty⟩ :=
    batchApply_spec s results updates s.current_values s.parameters [] hnd hreslook hinit
  by_cases hfil : updates.filter (entryOKB s) = []
  · have happly2 : batchApply results updates s.current_values s.parameters [] =
        some (s.current_values, ps', []) := by
      rw [happly, hfil]; simp [applyVals]
    have hps : ps' = s.parameters := hempty hfil
    refine ⟨results, s, ?_, hreslook, ?_, fun _ => rfl, fun hne => absurd hfil hne⟩
    · rw [hps] at happly2
      simp only [set_parameters_batch, hresrun, happly2, List.isEmpty_nil, if_true]
    · rw [hfil]; rfl
  · have hmap : ((updates.filter (entryOKB s)).map (mkChange s)).isEmpty = false := by
      cases hfl : updates.filter (entryOKB s) with
      | nil => exact absurd hfl hfil
      | cons a l => simp [hfl, List.isEmpty]
    refine ⟨results,
      { parameters := ps',
        current_values := applyVals s.current_values (updates.filter (entryOKB s)),
        undo_stack := s.undo_stack ++ [(updates.filter (entryOKB s)).map (mkChange s)],
        redo_stack := [] }, ?_, hreslook, rfl, fun h => absurd h hfil, fun _ => ⟨rfl, rfl⟩⟩
    simp only [set_parameters_batch, hresrun, happly, List.nil_append, hmap,
      Bool.false_eq_true, if_false]

/-- The batch used by the C4 witness: one valid entry, one type mismatch
(an int for a bool parameter), one unknown name. -/
def batchSample : List (String × PyVal) :=
  [("amplitude", .float 5), ("show_grid", .int 3), ("missing", .int 1)]

theorem C4_batch_updates_witness :
    ∃ results s',
      set_parameters_batch sampleState batchSample = some (results, s') ∧
      (∀ p ∈ batchSample, alookup results p.1 = some (entryOKB sampleState p)) ∧
      s'.current_values =
        applyVals sampleState.current_values (batchSample.filter (entryOKB sampleState)) ∧
      (batchSample.filter (entryOKB sampleState) = [] → s' = sampleState) ∧
      (batchSample.filter (entryOKB sampleState) ≠ [] →
        s'.undo_stack = sampleState.undo_stack ++
          [(batchSample.filter (entryOKB sampleState)).map (mkChange sampleState)] ∧
        s'.redo_stack = []) :=
  C4_batch_updates sampleState batchSample (by decide) (by decide)

/-- C10: unlike `set_parameter`, the batch path has no no-op check: an entry
equal to the current value is reported `true`, applied, recorded as a change
whose old and new values coincide, and still pushes a batch and clears the
redo stack, while the same single update through `set_parameter` returns
`false` with no effect. -/
theorem C10_batch_has_no_noop_check (s : PMState) (name : String) (v : PyVal)
    (hcv : alookup s.current_values name = some v)
    (hty : validate_type s name v = true)
    (hbd : validate_bounds s name v = some true) :
    set_parameter s name v = some (false, s) ∧
    ∃ s', set_parameters_batch s [(name, v)] = some ([(name, true)], s') ∧
      s'.undo_stack = s.undo_stack ++ [[⟨name, v, v⟩]] ∧
      s'.redo_stack = [] ∧
      alookup s'.current_values name = some v := by
  constructor
  · unfold set_parameter
    simp only [hcv, pyEqB_refl, if_true]
  · obtain ⟨pd, hpd⟩ := validate_type_isSome s name v hty
    have hve : validateEntry s name v = some true := by
      unfold validateEntry
      simp only [hcv, hty, hbd, Option.isNone_some, Bool.false_eq_true, if_false, if_true]
    have hbv : batchValidate s [(name, v)] [] = some [(name, true)] := by
      simp [batchValidate, hve, setKey]
    have hba : batchApply [(name, true)] [(name, v)] s.current_values s.parameters [] =
        some (setKey s.current_values name v,
              setKey s.parameters name { pd with value := v }, [⟨name, v, v⟩]) := by
      simp [batchApply, alookup, hcv, hpd]
    refine ⟨{ parameters := setKey s.parameters name { pd with value := v },
              current_values := setKey s.current_values name v,
              undo_stack := s.undo_stack ++ [[⟨name, v, v⟩]],
              redo_stack := [] }, ?_, rfl, rfl, alookup_setKey_self _ _ _⟩
    simp only [set_parameters_batch, hbv, hba, List.isEmpty_cons, Bool.false_eq_true, if_false]

theorem C10_batch_has_no_noop_check_witness :
    set_parameter sampleState "show_grid" (PyVal.bool false) = some (false, sampleState) ∧
    ∃ s', set_parameters_batch sampleState [("show_grid", PyVal.bool false)] =
        some ([("show_grid", true)], s') ∧
      s'.undo_stack = sampleState.undo_stack ++
        [[⟨"show_grid", PyVal.bool false, PyVal.bool false⟩]] ∧
      s'.redo_stack = [] ∧
      alookup s'.current_values "show_grid" = some (PyVal.bool false) :=
  C10_batch_has_no_noop_check sampleState "show_grid" (PyVal.bool false)
    (by decide) (by decide) (by decide)

/-! Category extraction (`ParameterParser.get_categories`, parser.py).

The parser's inputs that come from Python's `ast` module are abstracted into a
`ParserInput`: the source split into lines, the parameter names extracted from
the PARAMETERS dict (distinct, in declaration order — Python dict keys), and
the 0-indexed line of the PARAMETERS assignment.  Everything from parser.py
line 127 onwards is modelled on those inputs.

The two regular expressions are translated as follows.  Both patterns start
with a literal hash followed by optional whitespace and a capture group that
may not contain a hash, and end with optional whitespace anchored at the end
of the line.  Hence a match, if any, starts at the last hash of the line, the
group begins at the first non-space character after it (which must be an ASCII
uppercase letter), and — because the tail of the pattern admits only
whitespace — the stripped capture is exactly the text from that character to
the last non-space character of the line.  Whitespace is modelled as the six
ASCII whitespace characters (Unicode whitespace is out of scope). -/

def hashChar : Char := Char.ofNat 35

def dquoteChar : Char := Char.ofNat 34

def squoteChar : Char := Char.ofNat 39

def isPySpace (c : Char) : Bool :=
  c == ' ' || c == '\t' || c == '\n' || c == '\r' || c == Char.ofNat 11 || c == Char.ofNat 12

def isUpperAZ (c : Char) : Bool :=
  decide ('A' ≤ c) && decide (c ≤ 'Z')

def trimRightChars (l : List Char) : List Char :=
  (l.reverse.dropWhile isPySpace).reverse

/-- Substring containment, Python's `needle in hay`. -/
def strContains : List Char → List Char → Bool
  | [], needle => needle.isEmpty
  | c :: t, needle => needle.isPrefixOf (c :: t) || strContains t needle

/-- The characters after the last hash of the line, `none` if the line has no
hash (no match can start anywhere else, since the capture group excludes
hashes and the pattern is anchored at the end of the line). -/
def afterLastHash : List Char → Option (List Char)
  | [] => none
  | c :: rest =>
    match afterLastHash rest with
    | some r => some r
    | none => if c = hashChar then some rest else none

/-- Shared prefix of both category regexes: behind the last hash, skip
whitespace, require an ASCII uppercase letter, and return the line's remaining
text stripped of trailing whitespace (the stripped capture group). -/
def headerBody (line : String) : Option (List Char) :=
  match afterLastHash line.toList with
  | none => none
  | some rest =>
    let r := rest.dropWhile isPySpace
    match r with
    | [] => none
    | c :: _ => if isUpperAZ c then some (trimRightChars r) else none

/-- The `category_pattern` of the first loop of `get_categories`
(an uppercase start and at least one further character), capture stripped. -/
def pattern1Extract (line : String) : Option String :=
  match headerBody line with
  | none => none
  | some body => if 2 ≤ body.length then some (String.mk body) else none

def lowerChars (l : List Char) : List Char := l.map Char.toLower

/-- The keyword filter applied to a first-pattern capture. -/
def hasCategoryKeyword (text : String) : Bool :=
  ["parameter", "setting", "config", "option", "property"].any
    (fun kw => strContains (lowerChars text.toList) kw.toList)

def endsWithChars (l suf : List Char) : Bool :=
  suf.reverse.isPrefixOf l.reverse

/-- Occurrence of `Config`/`config` anywhere in the given suffix of the body. -/
def hasConfigFrom : List Char → Bool
  | [] => false
  | c :: t =>
    "Config".toList.isPrefixOf (c :: t) || "config".toList.isPrefixOf (c :: t) ||
      hasConfigFrom t

/-- The body constraint of `_extract_category_lines`' pattern: the capture must
end with `Parameter(s)`/`Setting(s)` with at least one character between the
leading uppercase letter and that suffix, or contain `Config`/`config` at
index at least 2 (one uppercase letter plus at least one lazy character
before it). -/
def pattern2Body (body : List Char) : Bool :=
  (endsWithChars body "Parameter".toList && decide (11 ≤ body.length)) ||
  (endsWithChars body "Parameters".toList && decide (12 ≤ body.length)) ||
  (endsWithChars body "Setting".toList && decide (9 ≤ body.length)) ||
  (endsWithChars body "Settings".toList && decide (10 ≤ body.length)) ||
  hasConfigFrom (body.drop 2)

/-- The pattern of `ParameterParser._extract_category_lines`, capture
stripped. -/
def pattern2Extract (line : String) : Option String :=
  match headerBody line with
  | none => none
  | some body => if pattern2Body body then some (String.mk body) else none

/-- Abstraction of a parsed script: its lines, the extracted parameter names
(distinct dict keys in declaration order) and `_find_parameters_line`. -/
structure ParserInput : Type where
  lines : List String
  paramKeys : List String
  paramsLine : Option Nat

/-- First index at or after `i` (into the given tail) whose line satisfies the
predicate. -/
def findIdxFrom (p : String → Bool) : List String → Nat → Option Nat
  | [], _ => none
  | l :: rest, i => if p l then some i else findIdxFrom p rest (i + 1)

/-- The quoted-occurrence test of `_find_parameter_lines` and `_update_file`:
the key in double or single quotes occurs in the line. -/
def containsQuotedKey (key : String) (line : String) : Bool :=
  strContains line.toList (dquoteChar :: (key.toList ++ [dquoteChar])) ||
  strContains line.toList (squoteChar :: (key.toList ++ [squoteChar]))

/-- `ParameterParser._find_parameter_lines`: for each key, the first line at
or after the PARAMETERS line containing the quoted key; keys never found are
simply absent. -/
def find_parameter_lines (lines : List String) (param_keys : List String)
    (start_line : Nat) : List (String × Nat) :=
  param_keys.filterMap fun key =>
    (findIdxFrom (containsQuotedKey key) (lines.drop start_line) start_line).map
      fun i => (key, i)

def catLinesAux : List String → Nat → List (Nat × String)
  | [], _ => []
  | l :: rest, i =>
    match pattern2Extract l with
    | some g => (i, g) :: catLinesAux rest (i + 1)
    | none => catLinesAux rest (i + 1)

/-- `ParameterParser._extract_category_lines`: line number and stripped capture
of every matching line from the PARAMETERS line on, in increasing line order. -/
def extract_category_lines (lines : List String) (start_line : Nat) : List (Nat × String) :=
  catLinesAux (lines.drop start_line) start_line

/-- The nearest preceding category line: the loop over
`sorted(categories_by_line.items(), reverse=True)` takes the first entry with
`cat_line < param_line`; since `extract_category_lines` produces strictly
increasing line numbers, that is the last qualifying entry in list order. -/
def nearestCat (cats : List (Nat × String)) (param_line : Nat) : String :=
  match (cats.filter fun c => decide (c.1 < param_line)).getLast? with
  | some c => c.2
  | none => "Default"

/-- The first loop of `get_categories` over `self.lines[params_line_num:]`,
with state `(categories, current_category, current_params)`; note the loop
never appends to `current_params`, so it stays empty. -/
def scanHeaders : List String → List (String × List String) → String → List String →
    List (String × List String) × String × List String
  | [], categories, current_category, current_params =>
    (categories, current_category, current_params)
  | line :: rest, categories, current_category, current_params =>
    match pattern1Extract line with
    | some g =>
      if hasCategoryKeyword g then
        scanHeaders rest
          (if current_params.isEmpty then categories
           else setKey categories current_category current_params)
          g []
      else scanHeaders rest categories current_category current_params
    | none => scanHeaders rest categories current_category current_params

/-- The `if current_params / elif current_category not in categories` epilogue
of the first loop. -/
def finishScan :
    List (String × List String) × String × List String → List (String × List String)
  | (categories, current_category, current_params) =>
    if ¬ current_params.isEmpty then setKey categories current_category current_params
    else if (alookup categories current_category).isNone then
      setKey categories current_category []
    else categories

/-- The body of the parameter-assignment loop of `get_categories` for one
parameter: ensure the assigned category exists, append the key to it unless
already present, and remove the key from `"Default"` when it was assigned
elsewhere. -/
def assign_step (assigned param_key : String)
    (result : List (String × List String)) : List (String × List String) :=
  let result₁ :=
    if (alookup result assigned).isNone then setKey result assigned [] else result
  let cur := (alookup result₁ assigned).getD []
  let result₂ :=
    if param_key ∈ cur then result₁ else setKey result₁ assigned (cur ++ [param_key])
  let dl := (alookup result₂ "Default").getD []
  if assigned ≠ "Default" ∧ param_key ∈ dl then
    setKey result₂ "Default" (dl.erase param_key)
  else result₂

/-- The parameter-assignment loop of `get_categories`. -/
def assign_loop (catsByLine : List (Nat × String)) :
    List (String × Nat) → List (String × List String) → List (String × List String)
  | [], result => result
  | (param_key, param_line) :: rest, result =>
    assign_loop catsByLine rest
      (assign_step (nearestCat catsByLine param_line) param_key result)

/-- `ParameterParser.get_categories`. -/
def get_categories (inp : ParserInput) : List (String × List String) :=
  if inp.paramKeys.isEmpty then []
  else
    match inp.paramsLine with
    | none => [("Default", inp.paramKeys)]
    | some pl =>
      let categories := finishScan (scanHeaders (inp.lines.drop pl) [] "Default" [])
      let plns := find_parameter_lines inp.lines inp.paramKeys pl
      let catsByLine := extract_category_lines inp.lines pl
      let result₀ :=
        setKey (categories.map fun p => (p.1, ([] : List String))) "Default" inp.paramKeys
      (assign_loop catsByLine plns result₀).filter fun p => !p.2.isEmpty

/-- Total number of occurrences of a name across all category lists. -/
def countOcc (cats : List (String × List String)) (k : String) : Nat :=
  (cats.map fun p => p.2.count k).sum

/-- The category the assignment loop gives to a key: the nearest preceding
category line of its parameter line, `"Default"` when the key's line was not
found or no category line precedes it. -/
def assignedCatOf (plnsAll : List (String × Nat)) (catsByLine : List (Nat × String))
    (k : String) : String :=
  match alookup plnsAll k with
  | some pl => nearestCat catsByLine pl
  | none => "Default"

theorem mem_of_alookup {α : Type} (m : List (String × α)) (x : String) (y : α)
    (h : alookup m x = some y) : (x, y) ∈ m := by
  induction m with
  | nil => simp [alookup] at h
  | cons p rest ih =>
    obtain ⟨k, v⟩ := p
    by_cases hk : k = x
    · subst hk
      simp [alookup] at h
      simp [h]
    · simp [alookup, hk] at h
      exact List.mem_cons_of_mem _ (ih h)

theorem keys_setKey_subset {α : Type} (m : List (String × α)) (k : String) (v : α)
    (x : String) (h : x ∈ (setKey m k v).map Prod.fst) :
    x ∈ m.map Prod.fst ∨ x = k := by
  induction m with
  | nil => simp [setKey] at h; simp [h]
  | cons p rest ih =>
    obtain ⟨a, b⟩ := p
    by_cases ha : a = k
    · simp [setKey, ha] at h
      rcases h with h | h
      · subst ha; simp [h]
      · exact Or.inl (by simp [h])
    · simp [setKey, ha] at h
      rcases h with h | h
      · exact Or.inl (by simp [h])
      · rcases ih (by simpa using h) with h' | h'
        · exact Or.inl (by simp; exact Or.inr (by simpa using h'))
        · exact Or.inr h'

theorem nodupKeys_setKey {α : Type} (m : List (String × α)) (k : String) (v : α)
    (h : (m.map Prod.fst).Nodup) : ((setKey m k v).map Prod.fst).Nodup := by
  induction m with
  | nil => simp [setKey]
  | cons p rest ih =>
    obtain ⟨a, b⟩ := p
    by_cases ha : a = k
    · simpa [setKey, ha] using h
    · simp only [setKey, ha, if_false, List.map_cons, List.nodup_cons] at h ⊢
      refine ⟨?_, ih h.2⟩
      intro hmem
      rcases keys_setKey_subset rest k v a hmem with h' | h'
      · exact h.1 h'
      · exact ha h'

/-- With distinct keys, an entry of `setKey m k v` is either an original entry
whose key differs from `k`, or the new binding. -/
theorem mem_setKey_strong {α : Type} (m : List (String × α)) (k : String) (v : α)
    (p : String × α) (hnd : (m.map Prod.fst).Nodup) (hp : p ∈ setKey m k v) :
    (p ∈ m ∧ p.1 ≠ k) ∨ p = (k, v) := by
  induction m with
  | nil =>
    simp [setKey] at hp
    exact Or.inr hp
  | cons q rest ih =>
    obtain ⟨a, b⟩ := q
    simp only [List.map_cons, List.nodup_cons] at hnd
    by_cases ha : a = k
    · subst ha
      simp only [setKey, if_true] at hp
      rcases List.mem_cons.mp hp with h | h
      · exact Or.inr h
      · refine Or.inl ⟨List.mem_cons_of_mem _ h, ?_⟩
        intro hpk
        exact hnd.1 (hpk ▸ List.mem_map_of_mem Prod.fst h)
    · simp only [setKey, ha, if_false] at hp
      rcases List.mem_cons.mp hp with h | h
      · subst h
        exact Or.inl ⟨List.mem_cons_self _ _, ha⟩
      · rcases ih hnd.2 h with ⟨h1, h2⟩ | h'
        · exact Or.inl ⟨List.mem_cons_of_mem _ h1, h2⟩
        · exact Or.inr h'

/-- With distinct keys, an entry's binding is what `alookup` returns. -/
theorem alookup_of_mem_nodupKeys {α : Type} (m : List (String × α)) (p : String × α)
    (hnd : (m.map Prod.fst).Nodup) (hp : p ∈ m) : alookup m p.1 = some p.2 := by
  induction m with
  | nil => simp at hp
  | cons q rest ih =>
    obtain ⟨a, b⟩ := q
    simp only [List.map_cons, List.nodup_cons] at hnd
    rcases List.mem_cons.mp hp with h | h
    · subst h
      simp [alookup]
    · have hne : a ≠ p.1 := by
        intro he
        exact hnd.1 (he ▸ List.mem_map_of_mem Prod.fst h)
      simp only [alookup, hne, if_false]
      exact ih hnd.2 h

/-- Exactly one category list holds `k`, and it holds it exactly once. -/
def onlyAt (result : List (String × List String)) (a k : String) : Prop :=
  (∃ l, alookup result a = some l ∧ l.count k = 1) ∧
  ∀ p ∈ result, p.1 ≠ a → p.2.count k = 0

/-- No category list holds `k`. -/
def absentIn (result : List (String × List String)) (k : String) : Prop :=
  ∀ p ∈ result, p.2.count k = 0

theorem countOcc_of_onlyAt : ∀ (result : List (String × List String)) (a k : String),
    (result.map Prod.fst).Nodup → onlyAt result a k → countOcc result k = 1 := by
  intro result
  induction result with
  | nil =>
    intro a k _ h
    obtain ⟨⟨l, hl, _⟩, _⟩ := h
    simp [alookup] at hl
  | cons p rest ih =>
    intro a k hnd h
    obtain ⟨⟨l, hl, hlc⟩, hrest⟩ := h
    obtain ⟨x, xs⟩ := p
    simp only [List.map_cons, List.nodup_cons] at hnd
    simp only [countOcc, List.map_cons, List.sum_cons]
    by_cases hx : x = a
    · have hxs : xs = l := by simpa [alookup, hx] using hl
      have hsum0 : (rest.map fun q => q.2.count k).sum = 0 := by
        apply List.sum_eq_zero
        intro n hn
        obtain ⟨q, hq, rfl⟩ := List.mem_map.mp hn
        refine hrest q (List.mem_cons_of_mem _ hq) fun he => ?_
        apply hnd.1
        have hm : q.1 ∈ rest.map Prod.fst := List.mem_map_of_mem Prod.fst hq
        rwa [he, ← hx] at hm
      rw [hxs, hsum0, hlc]
    · have hl' : alookup rest a = some l := by simpa [alookup, hx] using hl
      have h0 : xs.count k = 0 := hrest (x, xs) (List.mem_cons_self _ _) hx
      have hres : countOcc rest k = 1 :=
        ih a k hnd.2 ⟨⟨l, hl', hlc⟩, fun q hq hqa => hrest q (List.mem_cons_of_mem _ hq) hqa⟩
      simp only [countOcc] at hres
      rw [h0, hres]

theorem countOcc_of_absentIn (result : List (String × List String)) (k : String)
    (h : absentIn result k) : countOcc result k = 0 := by
  apply List.sum_eq_zero
  intro n hn
  obtain ⟨q, hq, rfl⟩ := List.mem_map.mp hn
  exact h q hq

/-- Everything one `assign_step` does to the occurrence structure: the key
`k`, currently held only by `"Default"`, ends up held exactly once by the
assigned category; every other name's occurrence structure is untouched. -/
theorem assign_step_spec (assigned k : String) (result : List (String × List String))
    (hnd : (result.map Prod.fst).Nodup)
    (hD : onlyAt result "Default" k) :
    ((assign_step assigned k result).map Prod.fst).Nodup ∧
    (alookup (assign_step assigned k result) "Default").isSome ∧
    onlyAt (assign_step assigned k result) assigned k ∧
    (∀ b x, x ≠ k → onlyAt result b x → onlyAt (assign_step assigned k result) b x) ∧
    (∀ x, x ≠ k → absentIn result x → absentIn (assign_step assigned k result) x) := by
  obtain ⟨⟨dl, hdl, hdlc⟩, hDrest⟩ := hD
  have hkdl : k ∈ dl := by
    by_contra hk
    rw [List.count_eq_zero_of_not_mem hk] at hdlc
    simp at hdlc
  by_cases hcase : assigned = "Default"
  · -- the assigned category is "Default": the step is the identity
    subst hcase
    have hstep : assign_step "Default" k result = result := by
      simp only [assign_step, hdl, Option.isNone_some, Bool.false_eq_true, if_false,
        Option.getD_some, if_pos hkdl, ne_eq, not_true_eq_false, false_and]
    rw [hstep]
    exact ⟨hnd, by simp [hdl], ⟨⟨dl, hdl, hdlc⟩, hDrest⟩, fun _ _ _ h => h, fun _ _ h => h⟩
  · -- a genuine category: append k there and erase it from "Default"
    have hDne : "Default" ≠ assigned := fun he => hcase he.symm
    -- characterize result₁ = (category ensured to exist)
    obtain ⟨cur₀, r₁, hr₁def, hr₁a, hr₁ne, hr₁nd, hr₁mem, hcur₀⟩ :
        ∃ cur₀ r₁,
          (if (alookup result assigned).isNone then setKey result assigned [] else result)
            = r₁ ∧
          alookup r₁ assigned = some cur₀ ∧
          (∀ x, x ≠ assigned → alookup r₁ x = alookup result x) ∧
          (r₁.map Prod.fst).Nodup ∧
          (∀ p ∈ r₁, p.1 ≠ assigned → p ∈ result) ∧
          ((alookup result assigned = none ∧ cur₀ = []) ∨
            alookup result assigned = some cur₀) := by
      cases hfr : alookup result assigned with
      | none =>
        refine ⟨[], setKey result assigned [], by simp [hfr],
          alookup_setKey_self _ _ _, ?_, nodupKeys_setKey _ _ _ hnd, ?_,
          Or.inl ⟨rfl, rfl⟩⟩
        · intro x hx
          exact alookup_setKey_ne _ _ _ _ fun he => hx he.symm
        · intro p hp hpa
          rcases mem_setKey_strong result assigned [] p hnd hp with ⟨h1, _⟩ | h2
          · exact h1
          · exact absurd (by rw [h2]) hpa
      | some l =>
        exact ⟨l, result, by simp, hfr, fun _ _ => rfl, hnd,
          fun p hp _ => hp, Or.inr rfl⟩
    have hcur₀k : k ∉ cur₀ := by
      rcases hcur₀ with ⟨_, rfl⟩ | hmem
      · simp
      · intro hk
        have h0 := hDrest (assigned, cur₀) (mem_of_alookup _ _ _ hmem) hcase
        exact (List.count_eq_zero.mp h0) hk
    have hr₂D : alookup (setKey r₁ assigned (cur₀ ++ [k])) "Default" = some dl := by
      rw [alookup_setKey_ne _ _ _ _ hcase, hr₁ne "Default" hDne]
      exact hdl
    have hr₂nd : ((setKey r₁ assigned (cur₀ ++ [k])).map Prod.fst).Nodup :=
      nodupKeys_setKey _ _ _ hr₁nd
    have hstep : assign_step assigned k result =
        setKey (setKey r₁ assigned (cur₀ ++ [k])) "Default" (dl.erase k) := by
      simp only [assign_step]
      rw [hr₁def, hr₁a]
      simp only [Option.getD_some]
      rw [if_neg hcur₀k, hr₂D]
      simp only [Option.getD_some]
      rw [if_pos ⟨hcase, hkdl⟩]
    -- entry decomposition for the final state
    have hdecomp : ∀ p ∈ assign_step assigned k result,
        p = ("Default", dl.erase k) ∨ p = (assigned, cur₀ ++ [k]) ∨
        (p ∈ result ∧ p.1 ≠ assigned ∧ p.1 ≠ "Default") := by
      intro p hp
      rw [hstep] at hp
      rcases mem_setKey_strong _ _ _ p hr₂nd hp with ⟨hp2, hpD⟩ | hpd
      · rcases mem_setKey_strong _ _ _ p hr₁nd hp2 with ⟨hp1, hpa⟩ | hpa
        · exact Or.inr (Or.inr ⟨hr₁mem p hp1 hpa, hpa, hpD⟩)
        · exact Or.inr (Or.inl hpa)
      · exact Or.inl hpd
    have hlookA : alookup (assign_step assigned k result) assigned = some (cur₀ ++ [k]) := by
      rw [hstep, alookup_setKey_ne _ _ _ _ hDne]
      exact alookup_setKey_self _ _ _
    have hlookD : alookup (assign_step assigned k result) "Default" = some (dl.erase k) := by
      rw [hstep]
      exact alookup_setKey_self _ _ _
    have hlookOther : ∀ x, x ≠ assigned → x ≠ "Default" →
        alookup (assign_step assigned k result) x = alookup result x := by
      intro x hx hxD
      rw [hstep, alookup_setKey_ne _ _ _ _ fun he => hxD he.symm,
        alookup_setKey_ne _ _ _ _ fun he => hx he.symm]
      exact hr₁ne x hx
    have hcurCnt : ∀ x, (∀ p ∈ result, p.1 ≠ "Default" → p.2.count x = 0) →
        cur₀.count x = 0 := by
      intro x hall
      rcases hcur₀ with ⟨_, rfl⟩ | hmem
      · simp
      · exact hall (assigned, cur₀) (mem_of_alookup _ _ _ hmem) hcase
    refine ⟨?_, ?_, ?_, ?_, ?_⟩
    · rw [hstep]
      exact nodupKeys_setKey _ _ _ hr₂nd
    · rw [hlookD]
      rfl
    · constructor
      · refine ⟨cur₀ ++ [k], hlookA, ?_⟩
        rw [List.count_append]
        rw [List.count_eq_zero.mpr hcur₀k]
        simp
      · intro p hp hpa
        rcases hdecomp p hp with rfl | rfl | ⟨hpr, _, hpD⟩
        · simp only
          rw [List.count_erase_self, hdlc]
        · exact absurd rfl hpa
        · exact hDrest p hpr hpD
    · intro b x hxk hbx
      obtain ⟨⟨lb, hlb, hlbc⟩, hbrest⟩ := hbx
      constructor
      · by_cases hb : b = "Default"
        · subst hb
          refine ⟨dl.erase k, hlookD, ?_⟩
          rw [List.count_erase_of_ne hxk]
          rw [hdl] at hlb
          obtain rfl : dl = lb := by simpa using hlb
          exact hlbc
        · by_cases hb2 : b = assigned
          · subst hb2
            rcases hcur₀ with ⟨hnone, _⟩ | hsome
            · rw [hnone] at hlb; simp at hlb
            · rw [hsome] at hlb
              obtain rfl : cur₀ = lb := by simpa using hlb
              refine ⟨cur₀ ++ [k], hlookA, ?_⟩
              rw [List.count_append]
              have hone : List.count x [k] = 0 := by
                rw [List.count_eq_zero]
                simpa using hxk
              rw [hone, hlbc]
          · exact ⟨lb, by rw [hlookOther b hb2 hb]; exact hlb, hlbc⟩
      · intro p hp hpb
        rcases hdecomp p hp with rfl | rfl | ⟨hpr, _, _⟩
        · simp only
          rw [List.count_erase_of_ne hxk]
          exact hbrest ("Default", dl) (mem_of_alookup _ _ _ hdl) (by simpa using hpb)
        · simp only
          rw [List.count_append]
          have h1 : List.count x [k] = 0 := by
            rw [List.count_eq_zero]
            simpa using hxk
          have h2 : cur₀.count x = 0 := by
            rcases hcur₀ with ⟨_, rfl⟩ | hmem
            · simp
            · exact hbrest (assigned, cur₀) (mem_of_alookup _ _ _ hmem) (by simpa using hpb)
          rw [h1, h2]
        · exact hbrest p hpr hpb
    · intro x hxk habs
      intro p hp
      rcases hdecomp p hp with rfl | rfl | ⟨hpr, _, _⟩
      · simp only
        rw [List.count_erase_of_ne hxk]
        exact habs ("Default", dl) (mem_of_alookup _ _ _ hdl)
      · simp only
        rw [List.count_append]
        have h1 : List.count x [k] = 0 := by
          rw [List.count_eq_zero]
          simpa using hxk
        have h2 : cur₀.count x = 0 := by
          rcases hcur₀ with ⟨_, rfl⟩ | hmem
          · simp
          · exact habs (assigned, cur₀) (mem_of_alookup _ _ _ hmem)
        rw [h1, h2]
      · exact habs p hpr

theorem countOcc_filter_nonempty (result : List (String × List String)) (k : String) :
    countOcc (result.filter fun p => !p.2.isEmpty) k = countOcc result k := by
  induction result with
  | nil => rfl
  | cons p rest ih =>
    simp only [List.filter_cons]
    by_cases hp : p.2.isEmpty
    · have hnil : p.2 = [] := List.isEmpty_iff.mp hp
      rw [if_neg (by simp [hp])]
      rw [ih]
      simp [countOcc, hnil]
    · rw [if_pos (by simp [hp])]
      simp only [countOcc, List.map_cons, List.sum_cons]
      have : (List.map (fun p => p.2.count k) (rest.filter fun p => !p.2.isEmpty)).sum =
          countOcc (rest.filter fun p => !p.2.isEmpty) k := rfl
      rw [this, ih]
      rfl

/-- Running the whole assignment loop: if every still-unprocessed key sits
exactly once in `"Default"`, then afterwards every key of `paramKeys` sits
exactly once in its assigned category, and foreign names appear nowhere. -/
theorem assign_loop_partition (paramKeys : List String) (plnsAll : List (String × Nat))
    (catsByLine : List (Nat × String)) :
    ∀ (rem : List (String × Nat)) (result : List (String × List String)),
    (rem.map Prod.fst).Nodup →
    (∀ p ∈ rem, alookup plnsAll p.1 = some p.2) →
    (∀ p ∈ rem, p.1 ∈ paramKeys) →
    (result.map Prod.fst).Nodup →
    (∀ p ∈ rem, onlyAt result "Default" p.1) →
    (∀ k ∈ paramKeys, (∀ p ∈ rem, p.1 ≠ k) →
      onlyAt result (assignedCatOf plnsAll catsByLine k) k) →
    (∀ k, k ∉ paramKeys → absentIn result k) →
    ((assign_loop catsByLine rem result).map Prod.fst).Nodup ∧
    (∀ k ∈ paramKeys,
      onlyAt (assign_loop catsByLine rem result) (assignedCatOf plnsAll catsByLine k) k) ∧
    (∀ k, k ∉ paramKeys → absentIn (assign_loop catsByLine rem result) k) := by
  intro rem
  induction rem with
  | nil =>
    intro result _ _ _ hndR _ hdone houts
    exact ⟨hndR, fun k hk => hdone k hk (by simp), houts⟩
  | cons hd rem' ih =>
    intro result hnd hplns hkeys hndR hremD hdone houts
    obtain ⟨k, pl⟩ := hd
    have hknd := List.nodup_cons.mp hnd
    have hkP : k ∈ paramKeys := hkeys (k, pl) (List.mem_cons_self _ _)
    have hkpl : alookup plnsAll k = some pl := hplns (k, pl) (List.mem_cons_self _ _)
    have hkne : ∀ p ∈ rem', p.1 ≠ k := by
      intro p hp he
      apply hknd.1
      have hm : p.1 ∈ rem'.map Prod.fst := List.mem_map_of_mem Prod.fst hp
      rwa [he] at hm
    obtain ⟨snd, sD, sk, spres, sabs⟩ :=
      assign_step_spec (nearestCat catsByLine pl) k result hndR
        (hremD (k, pl) (List.mem_cons_self _ _))
    have hloop : assign_loop catsByLine ((k, pl) :: rem') result =
        assign_loop catsByLine rem' (assign_step (nearestCat catsByLine pl) k result) := rfl
    rw [hloop]
    refine ih (assign_step (nearestCat catsByLine pl) k result)
      hknd.2
      (fun p hp => hplns p (List.mem_cons_of_mem _ hp))
      (fun p hp => hkeys p (List.mem_cons_of_mem _ hp))
      snd
      ?_ ?_ ?_
    · intro p hp
      exact spres "Default" p.1 (hkne p hp) (hremD p (List.mem_cons_of_mem _ hp))
    · intro k' hk' hnone
      by_cases hkk : k' = k
      · subst hkk
        have : assignedCatOf plnsAll catsByLine k' = nearestCat catsByLine pl := by
          simp [assignedCatOf, hkpl]
        rw [this]
        exact sk
      · refine spres _ k' hkk ?_
        refine hdone k' hk' ?_
        intro p hp
        rcases List.mem_cons.mp hp with rfl | hp'
        · exact fun he => hkk he.symm
        · exact hnone p hp'
    · intro x hx
      exact sabs x (fun he => hx (he ▸ hkP)) (houts x hx)

theorem scanHeaders_nodupKeys :
    ∀ (lines : List String) (cats : List (String × List String)) (cc : String)
      (cp : List String), (cats.map Prod.fst).Nodup →
      (((scanHeaders lines cats cc cp).1).map Prod.fst).Nodup := by
  intro lines
  induction lines with
  | nil => intro cats _ _ h; exact h
  | cons line rest ih =>
    intro cats cc cp h
    simp only [scanHeaders]
    cases pattern1Extract line with
    | none => exact ih cats cc cp h
    | some g =>
      simp only
      by_cases hkw : hasCategoryKeyword g
      · rw [if_pos hkw]
        by_cases hcp : cp.isEmpty
        · rw [if_pos hcp]
          exact ih cats g [] h
        · rw [if_neg hcp]
          exact ih _ g [] (nodupKeys_setKey _ _ _ h)
      · rw [if_neg hkw]
        exact ih cats cc cp h

theorem finishScan_nodupKeys (st : (List (String × List String)) × String × List String)
    (h : (st.1.map Prod.fst).Nodup) : ((finishScan st).map Prod.fst).Nodup := by
  obtain ⟨cats, cc, cp⟩ := st
  simp only [finishScan]
  by_cases hcp : ¬ cp.isEmpty
  · rw [if_pos hcp]
    exact nodupKeys_setKey _ _ _ h
  · rw [if_neg hcp]
    by_cases hcc : (alookup cats cc).isNone
    · rw [if_pos hcc]
      exact nodupKeys_setKey _ _ _ h
    · rw [if_neg hcc]
      exact h

theorem find_parameter_lines_mem (lines : List String) (keys : List String)
    (pl : Nat) (p : String × Nat) (hp : p ∈ find_parameter_lines lines keys pl) :
    p.1 ∈ keys := by
  obtain ⟨a, ha, hfa⟩ := List.mem_filterMap.mp hp
  cases hidx : findIdxFrom (containsQuotedKey a) (lines.drop pl) pl with
  | none => rw [hidx] at hfa; simp at hfa
  | some i =>
    rw [hidx] at hfa
    simp only [Option.map_some', Option.some.injEq] at hfa
    rw [← hfa]
    exact ha

theorem find_parameter_lines_keys_sublist (lines : List String) (keys : List String)
    (pl : Nat) :
    ((find_parameter_lines lines keys pl).map Prod.fst).Sublist keys := by
  induction keys with
  | nil => simp [find_parameter_lines]
  | cons a rest ih =>
    simp only [find_parameter_lines, List.filterMap_cons]
    cases hidx : findIdxFrom (containsQuotedKey a) (lines.drop pl) pl with
    | none =>
      simp only [Option.map_none']
      exact (ih : _).cons a
    | some i =>
      simp only [Option.map_some', List.map_cons]
      exact (ih : _).cons₂ a

theorem alookup_eq_none_of_forbidden {α : Type} (m : List (String × α)) (k : String)
    (h : ∀ p ∈ m, p.1 ≠ k) : alookup m k = none := by
  cases hl : alookup m k with
  | none => rfl
  | some y => exact absurd rfl (h (k, y) (mem_of_alookup m k y hl))

/-- Shape of the initial `result` dict of `get_categories`: the `"Default"`
binding carries all parameter keys, every other binding is empty. -/
theorem result_init_shape (cats : List (String × List String)) (keys : List String)
    (hnd : (cats.map Prod.fst).Nodup) :
    ∀ q ∈ setKey (cats.map fun p => (p.1, ([] : List String))) "Default" keys,
      q = ("Default", keys) ∨ q.2 = [] := by
  intro q hq
  have hMnd : ((cats.map fun p => (p.1, ([] : List String))).map Prod.fst).Nodup := by
    rw [List.map_map]
    exact hnd
  rcases mem_setKey_strong _ "Default" keys q hMnd hq with ⟨hqM, _⟩ | hq2
  · obtain ⟨p, _, hpq⟩ := List.mem_map.mp hqM
    exact Or.inr (by rw [← hpq])
  · exact Or.inl hq2

/-- Full characterization of `get_categories` in the main case (nonempty key
set, PARAMETERS line found): the pre-filter state of the result dict has
distinct keys, holds each parameter key exactly once at its assigned
category, and holds no foreign name. -/
theorem get_categories_spec (inp : ParserInput) (hnd : inp.paramKeys.Nodup)
    (pl : Nat) (hpl : inp.paramsLine = some pl) (hemp : ¬ inp.paramKeys.isEmpty = true) :
    ∃ final : List (String × List String),
      get_categories inp = final.filter (fun p => !p.2.isEmpty) ∧
      (final.map Prod.fst).Nodup ∧
      (∀ k ∈ inp.paramKeys,
        onlyAt final (assignedCatOf (find_parameter_lines inp.lines inp.paramKeys pl)
          (extract_category_lines inp.lines pl) k) k) ∧
      (∀ k, k ∉ inp.paramKeys → absentIn final k) := by
  have hcatsnd : ((finishScan (scanHeaders (inp.lines.drop pl) [] "Default" [])).map
      Prod.fst).Nodup :=
    finishScan_nodupKeys _ (scanHeaders_nodupKeys (inp.lines.drop pl) [] "Default" []
      (by simp))
  have hplnd : ((find_parameter_lines inp.lines inp.paramKeys pl).map Prod.fst).Nodup :=
    (find_parameter_lines_keys_sublist inp.lines inp.paramKeys pl).nodup hnd
  have hinitnd : ((setKey ((finishScan (scanHeaders (inp.lines.drop pl) [] "Default" [])).map
      fun p => (p.1, ([] : List String))) "Default" inp.paramKeys).map Prod.fst).Nodup := by
    apply nodupKeys_setKey
    rw [List.map_map]
    exact hcatsnd
  have hshape := result_init_shape (finishScan (scanHeaders (inp.lines.drop pl) [] "Default" []))
    inp.paramKeys hcatsnd
  have hinitD : alookup (setKey ((finishScan (scanHeaders (inp.lines.drop pl) [] "Default" [])).map
      fun p => (p.1, ([] : List String))) "Default" inp.paramKeys) "Default" =
      some inp.paramKeys := alookup_setKey_self _ _ _
  have honlyD : ∀ x ∈ inp.paramKeys,
      onlyAt (setKey ((finishScan (scanHeaders (inp.lines.drop pl) [] "Default" [])).map
        fun p => (p.1, ([] : List String))) "Default" inp.paramKeys) "Default" x := by
    intro x hx
    refine ⟨⟨inp.paramKeys, hinitD, List.count_eq_one_of_mem hnd hx⟩, ?_⟩
    intro q hq hqD
    rcases hshape q hq with rfl | h2
    · exact absurd rfl hqD
    · simp [h2]
  obtain ⟨hfinnd, hfindone, hfinouts⟩ :=
    assign_loop_partition inp.paramKeys (find_parameter_lines inp.lines inp.paramKeys pl)
      (extract_category_lines inp.lines pl)
      (find_parameter_lines inp.lines inp.paramKeys pl)
      (setKey ((finishScan (scanHeaders (inp.lines.drop pl) [] "Default" [])).map
        fun p => (p.1, ([] : List String))) "Default" inp.paramKeys)
      hplnd
      (fun p hp => alookup_of_mem_nodupKeys _ p hplnd hp)
      (fun p hp => find_parameter_lines_mem _ _ _ p hp)
      hinitnd
      (fun p hp => honlyD p.1 (find_parameter_lines_mem _ _ _ p hp))
      (fun x hx hnone => by
        have hcat : assignedCatOf (find_parameter_lines inp.lines inp.paramKeys pl)
            (extract_category_lines inp.lines pl) x = "Default" := by
          simp [assignedCatOf,
            alookup_eq_none_of_forbidden (find_parameter_lines inp.lines inp.paramKeys pl) x hnone]
        rw [hcat]
        exact honlyD x hx)
      (fun x hx q hq => by
        rcases hshape q hq with rfl | h2
        · exact List.count_eq_zero_of_not_mem hx
        · simp [h2])
  refine ⟨_, ?_, hfinnd, hfindone, hfinouts⟩
  simp [get_categories, hemp, hpl]

/-- C5: `get_categories` always partitions the extracted parameter names:
every extracted name occurs in exactly one category list and exactly once in
it, and no list mentions a name outside the extracted set. -/
theorem C5_category_partition (inp : ParserInput) (hnd : inp.paramKeys.Nodup) :
    ∀ k, countOcc (get_categories inp) k = if k ∈ inp.paramKeys then 1 else 0 := by
  intro k
  by_cases hemp : inp.paramKeys.isEmpty
  · have hkeys : inp.paramKeys = [] := List.isEmpty_iff.mp hemp
    simp [get_categories, hemp, hkeys, countOcc]
  · cases hpl : inp.paramsLine with
    | none =>
      have h1 : get_categories inp = [("Default", inp.paramKeys)] := by
        simp [get_categories, hemp, hpl]
      rw [h1]
      by_cases hk : k ∈ inp.paramKeys
      · rw [if_pos hk]
        simp only [countOcc, List.map_cons, List.map_nil, List.sum_cons, List.sum_nil]
        rw [List.count_eq_one_of_mem hnd hk]
        rfl
      · rw [if_neg hk]
        simp only [countOcc, List.map_cons, List.map_nil, List.sum_cons, List.sum_nil]
        rw [List.count_eq_zero_of_not_mem hk]
        rfl
    | some pl =>
      obtain ⟨final, hgc, hfinnd, hfindone, hfinouts⟩ :=
        get_categories_spec inp hnd pl hpl hemp
      rw [hgc, countOcc_filter_nonempty]
      by_cases hk : k ∈ inp.paramKeys
      · rw [if_pos hk]
        exact countOcc_of_onlyAt _ _ k hfinnd (hfindone k hk)
      · rw [if_neg hk]
        exact countOcc_of_absentIn _ k (hfinouts k hk)

/-- The sample input of the witness: two headed groups after the PARAMETERS
line. -/
def sampleParserInput : ParserInput :=
  { lines := ["PARAMETERS = \x7b",
              "    # Physical Parameters",
              "    \"amplitude\": \x7b\"value\": 1.0\x7d,",
              "    \"damping\": \x7b\"value\": 0.5\x7d,",
              "    # Render options",
              "    \"speed\": \x7b\"value\": 2\x7d,",
              "\x7d"],
    paramKeys := ["amplitude", "damping", "speed"],
    paramsLine := some 0 }

theorem C5_category_partition_witness :
    countOcc (get_categories sampleParserInput) "speed" = 1 := by
  have h := C5_category_partition sampleParserInput (by decide) "speed"
  rw [if_pos (by decide)] at h
  exact h

theorem alookup_filter_nonempty (m : List (String × List String)) (a : String)
    (l : List String) (h : alookup m a = some l) (hne : l ≠ []) :
    alookup (m.filter fun p => !p.2.isEmpty) a = some l := by
  induction m with
  | nil => simp [alookup] at h
  | cons q rest ih =>
    obtain ⟨x, xs⟩ := q
    by_cases hx : x = a
    · subst hx
      have hxl : xs = l := by simpa [alookup] using h
      subst hxl
      rw [List.filter_cons_of_pos (by simpa [List.isEmpty_iff] using hne)]
      simp [alookup]
    · have h' : alookup rest a = some l := by simpa [alookup, hx] using h
      by_cases hxs : xs.isEmpty
      · rw [List.filter_cons_of_neg (by simp [hxs])]
        exact ih h'
      · rw [List.filter_cons_of_pos (by simp [hxs])]
        simpa [alookup, hx] using ih h'

/-- Modelled from the spec: the claim's notion of a category header — a
comment line whose text contains one of the keywords
parameter/setting/config/option/property, case-insensitively. -/
def spec_keyword_header (line : String) : Bool :=
  line.toList.contains hashChar &&
    (["parameter", "setting", "config", "option", "property"].any fun kw =>
      strContains (lowerChars line.toList) kw.toList)

/-- Counterexample input for C6: the comment on line 1 contains the keyword
`option`, so by the claim the parameter `speed` declared on line 2 should be
assigned to category `Render options`. -/
def c6Input : ParserInput :=
  { lines := ["PARAMETERS = \x7b",
              "    # Render options",
              "    \"speed\": \x7b\"value\": 2\x7d,",
              "\x7d"],
    paramKeys := ["speed"],
    paramsLine := some 0 }

/-- C6 counterexample: line 1 is a comment containing the keyword `option`
(case-insensitively) and precedes the `speed` parameter found on line 2, yet
`get_categories` leaves `speed` in `Default` and produces no
`Render options` category at all — the assignment loop only honors headers
matched by `_extract_category_lines`' stricter pattern, which this comment
does not match. -/
theorem C6_counterexample :
    spec_keyword_header "    # Render options" = true ∧
    find_parameter_lines c6Input.lines c6Input.paramKeys 0 = [("speed", 2)] ∧
    pattern1Extract "    # Render options" = some "Render options" ∧
    pattern2Extract "    # Render options" = none ∧
    get_categories c6Input = [("Default", ["speed"])] ∧
    alookup (get_categories c6Input) "Render options" = none := by
  refine ⟨by decide, by decide, by decide, by decide, by decide, by decide⟩

/-- C6 as amended: a parameter whose declaration line was found is placed in
the category list named by the nearest `_extract_category_lines` header
strictly preceding its line (searching only from the PARAMETERS line on);
with no such header it stays in `Default`.  Header recognition for the
assignment is that stricter pattern — ending in `Parameter(s)`/`Setting(s)` or
containing `Config`/`config` — not the keyword set of the claim. -/
theorem C6_amended_nearest_header (inp : ParserInput) (hnd : inp.paramKeys.Nodup)
    (pl : Nat) (hpl : inp.paramsLine = some pl) :
    ∀ p ∈ find_parameter_lines inp.lines inp.paramKeys pl,
      ∃ l, alookup (get_categories inp)
             (nearestCat (extract_category_lines inp.lines pl) p.2) = some l ∧
           p.1 ∈ l := by
  intro p hp
  have hkmem : p.1 ∈ inp.paramKeys := find_parameter_lines_mem _ _ _ p hp
  have hemp : ¬ inp.paramKeys.isEmpty = true := by
    intro he
    rw [List.isEmpty_iff.mp he] at hkmem
    simp at hkmem
  obtain ⟨final, hgc, hfinnd, hfindone, _⟩ := get_categories_spec inp hnd pl hpl hemp
  have hplnd : ((find_parameter_lines inp.lines inp.paramKeys pl).map Prod.fst).Nodup :=
    (find_parameter_lines_keys_sublist inp.lines inp.paramKeys pl).nodup hnd
  have hlook : alookup (find_parameter_lines inp.lines inp.paramKeys pl) p.1 = some p.2 :=
    alookup_of_mem_nodupKeys _ p hplnd hp
  have hcat : assignedCatOf (find_parameter_lines inp.lines inp.paramKeys pl)
      (extract_category_lines inp.lines pl) p.1 =
      nearestCat (extract_category_lines inp.lines pl) p.2 := by
    simp [assignedCatOf, hlook]
  obtain ⟨⟨l, hl, hlc⟩, _⟩ := hfindone p.1 hkmem
  rw [hcat] at hl
  have hmem : p.1 ∈ l := by
    by_contra hnm
    rw [List.count_eq_zero_of_not_mem hnm] at hlc
    simp at hlc
  refine ⟨l, ?_, hmem⟩
  rw [hgc]
  exact alookup_filter_nonempty final _ l hl (by rintro rfl; simp at hmem)

theorem C6_amended_nearest_header_witness :
    ∃ l, alookup (get_categories sampleParserInput)
           (nearestCat (extract_category_lines sampleParserInput.lines 0) 5) = some l ∧
         "speed" ∈ l :=
  C6_amended_nearest_header sampleParserInput (by decide) 0 rfl ("speed", 5) (by decide)

/-! Extraction of the PARAMETERS dictionary
(`ParameterParser.extract_parameters`, parser.py).

The parsed tree (Python's `ast` output on a syntactically valid source) is
modelled by a small statement/expression language covering the node kinds the
extractor inspects; every other node is `otherE`/`otherS`.  A syntactically
invalid source never reaches `extract_parameters`: `ast.parse` raises in the
parser's constructor.  `ast.walk` enumerates nodes breadth-first; the walk
below is depth-first, which visits the same set of assignments (the claims
settled here do not depend on which of several PARAMETERS assignments wins). -/

/-- The constants `ast.Constant` can hold in the metadata we model. -/
inductive PyLit : Type
  | intL (n : ℤ)
  | floatL (q : ℚ)
  | boolL (b : Bool)
  | strL (s : String)
  | noneL
  deriving DecidableEq, Repr

/-- Expression forms inspected by `_extract_value`/`_extract_dict_value`. -/
inductive PyExpr : Type
  | dictE (entries : List (PyExpr × PyExpr))
  | constE (l : PyLit)
  | nameE (id : String)
  | listE (elts : List PyExpr)
  | tupleE (elts : List PyExpr)
  | usubE (e : PyExpr)
  | uaddE (e : PyExpr)
  | otherE

/-- An assignment target: a plain name, or anything else. -/
inductive PyTarget : Type
  | nameT (id : String)
  | otherT

/-- Statements: assignments, block statements whose bodies `ast.walk`
descends into (function/class/if/loop bodies), and everything else. -/
inductive Stmt : Type
  | assignS (targets : List PyTarget) (value : PyExpr)
  | blockS (body : List Stmt)
  | otherS

/-- A parsed module (the body of the tree). -/
abbrev Module : Type := List Stmt

/-- The value `_extract_value` returns: a constant, one of the four type
objects, or a nested dict/list/tuple of extracted values. -/
inductive ExVal : Type
  | litV (l : PyLit)
  | typeV (t : TypeTag)
  | dictV (entries : List (PyLit × ExVal))
  | listV (elts : List ExVal)
  | tupleV (elts : List ExVal)

/-- Python unary minus on an extracted value (`-True == -1`); `none` models
the `TypeError` raised on non-numeric operands. -/
def negLit : PyLit → Option PyLit
  | .intL n => some (.intL (-n))
  | .floatL q => some (.floatL (-q))
  | .boolL b => some (.intL (-(if b then (1 : ℤ) else 0)))
  | _ => none

/-- Python unary plus on an extracted value (`+True == 1`). -/
def posLit : PyLit → Option PyLit
  | .intL n => some (.intL n)
  | .floatL q => some (.floatL q)
  | .boolL b => some (.intL (if b then (1 : ℤ) else 0))
  | _ => none

/-- Python `==` on the constant keys of the extracted dict (numeric kinds
compare across `int`/`float`/`bool`; `None` equals only itself). -/
def pyLitEqB (a b : PyLit) : Bool :=
  match a, b with
  | .noneL, .noneL => true
  | .strL s, .strL t => decide (s = t)
  | .intL n, .intL m => decide (n = m)
  | .intL n, .floatL q => decide ((n : ℚ) = q)
  | .intL n, .boolL b => decide ((n : ℚ) = if b then 1 else 0)
  | .floatL q, .intL m => decide (q = (m : ℚ))
  | .floatL q, .floatL r => decide (q = r)
  | .floatL q, .boolL b => decide (q = if b then 1 else 0)
  | .boolL b, .intL m => decide ((if b then (1 : ℚ) else 0) = (m : ℚ))
  | .boolL b, .floatL q => decide ((if b then (1 : ℚ) else 0) = q)
  | .boolL b, .boolL c => decide (b = c)
  | _, _ => false

/-- `result[key] = value` on the dict being built: overwrite the binding of
the first `==`-equal key (keeping the original key object), else append. -/
def dictAssign (m : List (PyLit × ExVal)) (k : PyLit) (v : ExVal) : List (PyLit × ExVal) :=
  match m with
  | [] => [(k, v)]
  | (k', v') :: rest =>
    if pyLitEqB k' k then (k', v) :: rest else (k', v') :: dictAssign rest k v

mutual

/-- `ParameterParser._extract_value`; `none` models an uncaught exception
(unary `-`/`+` applied to a non-numeric extracted value). -/
def extract_value : PyExpr → Option ExVal
  | .dictE es =>
    match extractPairs es with
    | none => none
    | some pairs => some (.dictV (pairs.foldl (fun m p => dictAssign m p.1 p.2) []))
  | .constE l => some (.litV l)
  | .nameE id =>
    if id = "True" then some (.litV (.boolL true))
    else if id = "False" then some (.litV (.boolL false))
    else if id = "None" then some (.litV .noneL)
    else if id = "float" then some (.typeV .tfloat)
    else if id = "int" then some (.typeV .tint)
    else if id = "bool" then some (.typeV .tbool)
    else if id = "str" then some (.typeV .tstr)
    else some (.litV .noneL)
  | .listE es =>
    match extractList es with
    | none => none
    | some vs => some (.listV vs)
  | .tupleE es =>
    match extractList es with
    | none => none
    | some vs => some (.tupleV vs)
  | .usubE e =>
    match extract_value e with
    | some (.litV l) =>
      match negLit l with
      | some l' => some (.litV l')
      | none => none
    | some _ => none
    | none => none
  | .uaddE e =>
    match extract_value e with
    | some (.litV l) =>
      match posLit l with
      | some l' => some (.litV l')
      | none => none
    | some _ => none
    | none => none
  | .otherE => some (.litV .noneL)

/-- The element loop of the list/tuple comprehension in `_extract_value`. -/
def extractList : List PyExpr → Option (List ExVal)
  | [] => some []
  | e :: rest =>
    match extract_value e, extractList rest with
    | some v, some vs => some (v :: vs)
    | _, _ => none

/-- The `zip(node.keys, node.values)` loop of `_extract_dict_value`, keeping
only `ast.Constant` keys, in order. -/
def extractPairs : List (PyExpr × PyExpr) → Option (List (PyLit × ExVal))
  | [] => some []
  | (k, v) :: rest =>
    match k with
    | .constE kl =>
      match extract_value v, extractPairs rest with
      | some ev, some evs => some ((kl, ev) :: evs)
      | _, _ => none
    | _ => extractPairs rest

end

/-- `ParameterParser._extract_dict_value`: a non-dict node yields the empty
dict; a dict node is folded entry by entry. -/
def extract_dict_value (e : PyExpr) : Option (List (PyLit × ExVal)) :=
  match e with
  | .dictE es =>
    match extractPairs es with
    | none => none
    | some pairs => some (pairs.foldl (fun m p => dictAssign m p.1 p.2) [])
  | _ => some []

mutual

/-- All `(targets, value)` assignment pairs in the tree, in walk order. -/
def stmtWalkAssigns : Stmt → List (List PyTarget × PyExpr)
  | .assignS ts v => [(ts, v)]
  | .blockS body => walkAssigns body
  | .otherS => []

def walkAssigns : Module → List (List PyTarget × PyExpr)
  | [] => []
  | s :: rest => stmtWalkAssigns s ++ walkAssigns rest

end

/-- Does an assignment bind the name `PARAMETERS`? -/
def isParametersTarget (ts : List PyTarget) : Bool :=
  ts.any fun t =>
    match t with
    | .nameT id => decide (id = "PARAMETERS")
    | .otherT => false

/-- Whether the tree contains any assignment to `PARAMETERS`. -/
def hasParametersAssign (m : Module) : Bool :=
  (walkAssigns m).any fun p => isParametersTarget p.1

/-- `ParameterParser.extract_parameters`: the value of the first assignment to
`PARAMETERS` found in the walk, decoded by `_extract_dict_value`; the empty
dict when no such assignment exists.  The outer `Option` is the exception
channel of the decoder. -/
def extract_parameters (m : Module) : Option (List (PyLit × ExVal)) :=
  match (walkAssigns m).find? (fun p => isParametersTarget p.1) with
  | some p => extract_dict_value p.2
  | none => some []

/-- A syntactically valid module binding a different name and containing no
assignment to `PARAMETERS` anywhere, even nested. -/
def c7Module : Module :=
  [Stmt.assignS [PyTarget.nameT "OTHER"] (PyExpr.constE (PyLit.intL 3)),
   Stmt.blockS [Stmt.otherS],
   Stmt.otherS]

/-- C7 counterexample: on a syntactically valid tree with no `PARAMETERS`
assignment, `extract_parameters` returns the empty mapping — a normal result,
exactly as its docstring says ("Empty dict if PARAMETERS not found") — rather
than reporting a failure as the claim requires. -/
theorem C7_counterexample :
    hasParametersAssign c7Module = false ∧
    extract_parameters c7Module = some [] :=
  ⟨rfl, rfl⟩

/-- C7 as amended: a syntactically invalid source still fails (in the
constructor, where `ast.parse` raises before extraction is reached), but for
every syntactically valid tree with no assignment to the name `PARAMETERS`
(anywhere — `ast.walk` also searches nested scopes, so "top-level" is not
required either), `extract_parameters` returns the empty mapping without
failing. -/
theorem C7_amended_empty_result (m : Module) (h : hasParametersAssign m = false) :
    extract_parameters m = some [] := by
  unfold extract_parameters
  have hfind : (walkAssigns m).find? (fun p => isParametersTarget p.1) = none := by
    rw [List.find?_eq_none]
    intro p hp
    unfold hasParametersAssign at h
    rw [List.any_eq_false] at h
    simp only [Bool.not_eq_true] at h ⊢
    exact h p hp
  rw [hfind]

theorem C7_amended_empty_result_witness :
    extract_parameters [Stmt.otherS, Stmt.blockS [Stmt.assignS [PyTarget.otherT]
      (PyExpr.constE (PyLit.strL "x"))]] = some [] :=
  C7_amended_empty_result _ rfl

/-! The process controller's `stop()` (`ManimRunner.stop`, manim_runner.py).

The runner's fields read or written by `stop` are modelled: the recorded
status, the process handle with its point-in-time `poll()` result (the exit
code once the process has exited), the shared cancellation flag
(`stop_event`), the status queue fed by `_set_status`, and whether the
cleanup worker thread was launched.  Thread scheduling itself is not in the
model; `stop` runs to its `return` before anything else observes the state. -/

inductive ManimProcessStatus : Type
  | idle
  | running
  | stopping
  | finished
  | error
  | stopped
  deriving DecidableEq, Repr

/-- A process handle; `poll` is its current `poll()` answer. -/
structure Proc : Type where
  poll : Option ℤ
  deriving DecidableEq, Repr

structure RunnerState : Type where
  status : ManimProcessStatus
  process : Option Proc
  stop_event : Bool
  status_queue : List ManimProcessStatus
  cleanup_started : Bool
  deriving DecidableEq, Repr

/-- `ManimRunner._set_status`: record the status and queue it for the poll
step. -/
def set_status (s : RunnerState) (st : ManimProcessStatus) : RunnerState :=
  { s with status := st, status_queue := s.status_queue ++ [st] }

/-- `ManimRunner.stop`. -/
def stop (s : RunnerState) : Bool × RunnerState :=
  if s.status ≠ ManimProcessStatus.running then (false, s)
  else
    match s.process with
    | none => (false, set_status s .stopped)
    | some p =>
      match p.poll with
      | some _ => (false, set_status s .stopped)
      | none =>
        let s₁ := { s with stop_event := true }
        let s₂ := set_status s₁ .stopping
        (true, { s₂ with cleanup_started := true })

/-- A state in which the recorded status is Running but the process handle is
gone. -/
def deadRunning : RunnerState :=
  { status := .running, process := none, stop_event := false,
    status_queue := [], cleanup_started := false }

/-- C8 counterexample: with the recorded state Running but no live process,
`stop()` returns `false` and transitions the state directly to Stopped — not
to Stopping, and without setting the cancellation flag or starting the
teardown worker — contradicting the claim that whenever the recorded state is
Running, `stop()` sets the flag, moves to Stopping and returns `true`. -/
theorem C8_counterexample :
    deadRunning.status = ManimProcessStatus.running ∧
    stop deadRunning = (false,
      { deadRunning with
          status := .stopped,
          status_queue := [.stopped] }) ∧
    (stop deadRunning).2.status ≠ ManimProcessStatus.stopping ∧
    (stop deadRunning).2.stop_event = false ∧
    (stop deadRunning).2.cleanup_started = false := by
  refine ⟨rfl, rfl, by decide, rfl, rfl⟩

/-- C8 as amended: `stop()` returns `false` and changes nothing unless the
recorded state is Running; from Running with a live, unexited process it sets
the cancellation flag, enqueues and records Stopping (and no other state),
starts the background teardown worker, and returns `true`; from Running with
a missing or already-exited process it records Stopped and returns `false`. -/
theorem C8_amended_stop_transitions (s : RunnerState) :
    (s.status ≠ .running → stop s = (false, s)) ∧
    (s.status = .running → ∀ p, s.process = some p → p.poll = none →
      stop s = (true,
        { s with
            status := .stopping,
            status_queue := s.status_queue ++ [.stopping],
            stop_event := true,
            cleanup_started := true })) ∧
    (s.status = .running → (s.process = none ∨ ∃ p c, s.process = some p ∧ p.poll = some c) →
      (stop s).1 = false ∧ (stop s).2.status = .stopped) := by
  refine ⟨?_, ?_, ?_⟩
  · intro h
    simp [stop, h]
  · intro hrun p hp hpoll
    simp [stop, hrun, hp, hpoll, set_status]
  · intro hrun hdead
    rcases hdead with hnone | ⟨p, c, hp, hpoll⟩
    · simp [stop, hrun, hnone, set_status]
    · simp [stop, hrun, hp, hpoll, set_status]

/-- A live Running state for the witness. -/
def liveRunning : RunnerState :=
  { status := .running, process := some { poll := none }, stop_event := false,
    status_queue := [], cleanup_started := false }

theorem C8_amended_stop_transitions_witness :
    stop liveRunning = (true,
      { liveRunning with
          status := .stopping,
          status_queue := [.stopping],
          stop_event := true,
          cleanup_started := true }) :=
  (C8_amended_stop_transitions liveRunning).2.1 rfl { poll := none } rfl rfl

/-! Presets (`PresetManager`, preset_manager.py).

The presets directory is modelled as a mapping from file names to parsed
preset files.  `json.dumps`/`json.loads` round-trip finite numeric, boolean
and string data structurally, so a stored file is identified with its parsed
content; the parameter values reuse `PyVal` (exactly the claim's
"JSON-representable numeric/boolean/string" values).  The `created` timestamp
is an opaque string supplied by the caller (wall clock is I/O). -/

/-- The JSON object `save_preset` writes. -/
structure PresetData : Type where
  name : String
  created : String
  script : String
  parameters : List (String × PyVal)
  deriving DecidableEq, Repr

/-- A `PresetManager` plus the relevant directory contents. -/
structure PresetStore : Type where
  script_stem : String
  script_name : String
  files : List (String × PresetData)
  deriving DecidableEq, Repr

/-- Name sanitization: spaces and path separators become underscores. -/
def sanitizeName (s : String) : String :=
  String.mk (s.toList.map fun c => if c = ' ' ∨ c = '/' then '_' else c)

/-- `{script_stem}_{safe_name}.preset.json`. -/
def preset_filename (m : PresetStore) (preset_name : String) : String :=
  m.script_stem ++ "_" ++ sanitizeName preset_name ++ ".preset.json"

/-- `PresetManager.save_preset` (`now` stands for `datetime.now().isoformat()`;
the file write is the update of `files`). -/
def save_preset (m : PresetStore) (now : String) (preset_name : String)
    (parameters : List (String × PyVal)) : Bool × PresetStore :=
  (true,
    { m with
        files := setKey m.files (preset_filename m preset_name)
          { name := preset_name, created := now, script := m.script_name,
            parameters := parameters } })

/-- `PresetManager.load_preset`: `None` when the file does not exist,
otherwise the `parameters` member of the parsed JSON. -/
def load_preset (m : PresetStore) (preset_name : String) :
    Option (List (String × PyVal)) :=
  match alookup m.files (preset_filename m preset_name) with
  | none => none
  | some data => some data.parameters

/-- C9: saving a preset and loading it back on the same manager returns the
saved parameter map unchanged, for any preset name and any map of
JSON-representable numeric/boolean/string values. -/
theorem C9_preset_roundtrip (m : PresetStore) (now preset_name : String)
    (parameters : List (String × PyVal)) :
    (save_preset m now preset_name parameters).1 = true ∧
    load_preset (save_preset m now preset_name parameters).2 preset_name =
      some parameters := by
  refine ⟨rfl, ?_⟩
  unfold load_preset save_preset
  simp only
  have hfn : preset_filename
      { script_stem := m.script_stem, script_name := m.script_name,
        files := setKey m.files (preset_filename m preset_name)
          { name := preset_name, created := now, script := m.script_name,
            parameters := parameters } } preset_name
      = preset_filename m preset_name := rfl
  rw [hfn, alookup_setKey_self]

end QMPlayer
